import Mathlib

set_option maxHeartbeats 1600000
set_option maxRecDepth 4000

namespace DocMonitor

/-! # Verification of the doc-monitor change-detection core

Shallow embedding of `src/differ.py`, `src/reporter.py`, `src/main.py`
(and, where noted, behaviour modelled from the specification) together
with theorems about the claims of the specification. -/

/-! ## Python `str.splitlines`

Model of Python `str.splitlines()` / `str.splitlines(keepends=True)`,
covering the line boundaries `\n`, `\r` and `\r\n` (Python additionally
splits on a handful of rare control characters that never occur in this
repository's data). -/

def splitlinesAux : List Char → List Char → List (List Char)
  | acc, [] => if acc.isEmpty then [] else [acc.reverse]
  | acc, '\r' :: '\n' :: rest => acc.reverse :: splitlinesAux [] rest
  | acc, '\r' :: rest => acc.reverse :: splitlinesAux [] rest
  | acc, '\n' :: rest => acc.reverse :: splitlinesAux [] rest
  | acc, c :: rest => splitlinesAux (c :: acc) rest

def splitlinesKeepAux : List Char → List Char → List (List Char)
  | acc, [] => if acc.isEmpty then [] else [acc.reverse]
  | acc, '\r' :: '\n' :: rest => (acc.reverse ++ ['\r', '\n']) :: splitlinesKeepAux [] rest
  | acc, '\r' :: rest => (acc.reverse ++ ['\r']) :: splitlinesKeepAux [] rest
  | acc, '\n' :: rest => (acc.reverse ++ ['\n']) :: splitlinesKeepAux [] rest
  | acc, c :: rest => splitlinesKeepAux (c :: acc) rest

/-- Python `s.splitlines()`. -/
def splitlines (s : String) : List String :=
  (splitlinesAux [] s.data).map List.asString

/-- Python `s.splitlines(keepends=True)`. -/
def splitlinesKeep (s : String) : List String :=
  (splitlinesKeepAux [] s.data).map List.asString

/-! ## difflib.SequenceMatcher (Python stdlib)

`DocumentDiffer._compute_unified_diff` calls `difflib.unified_diff`,
which runs `SequenceMatcher(None, a, b)` on the two line lists.  The
functions below are a direct translation of CPython's `difflib.py`.
`isjunk` is `None`, so `bjunk` is empty: the junk-extension loops of
`find_longest_match` can never execute and the `not isbjunk(...)` guards
of the non-junk extension loops are vacuously true; both are therefore
omitted from the translation. -/

/-- `b2j` before the autojunk purge: the (ascending) list of indices `j`
with `b[j] == x`. -/
def b2jRaw (b : List String) (x : String) : List Nat :=
  (List.range b.length).filter (fun j => b.getD j "" = x)

/-- `b2j` with the autojunk rule: for `len(b) >= 200`, elements occurring
more than `len(b) // 100 + 1` times are popular and are purged. -/
def b2j (b : List String) (x : String) : List Nat :=
  if 200 ≤ b.length ∧ b.length / 100 + 1 < b.count x then [] else b2jRaw b x

/-- The `for j in b2j.get(a[i], nothing)` loop's control flow:
`if j < blo: continue; elif j >= bhi: break`. -/
def selectJs (blo bhi : Nat) : List Nat → List Nat
  | [] => []
  | j :: js =>
    if j < blo then selectJs blo bhi js
    else if bhi ≤ j then []
    else j :: selectJs blo bhi js

/-- The inner loop of `find_longest_match` for one `i`: `j2len` and
`newj2len` are the Python dicts, modelled as total functions defaulting
to 0 (`dict.get(..., 0)`); Python's `j - 1` at `j == 0` is `-1`, a key
never present, hence the `if j = 0` guard; Python's `i-k+1`/`j-k+1` are
written `i+1-k`/`j+1-k` (equal values, as `k ≤ i+1` and `k ≤ j+1`). -/
def innerLoop (j2len : Nat → Nat) (i : Nat) :
    List Nat → (Nat → Nat) → Nat × Nat × Nat → ((Nat → Nat) × (Nat × Nat × Nat))
  | [], newj2len, best => (newj2len, best)
  | j :: js, newj2len, best =>
    let k := (if j = 0 then 0 else j2len (j - 1)) + 1
    let newj2len' := Function.update newj2len j k
    let best' := if best.2.2 < k then (i + 1 - k, j + 1 - k, k) else best
    innerLoop j2len i js newj2len' best'

/-- The outer `for i in range(alo, ahi)` loop of `find_longest_match`. -/
def phase1 (a b : List String) (blo bhi : Nat) :
    List Nat → (Nat → Nat) → Nat × Nat × Nat → Nat × Nat × Nat
  | [], _, best => best
  | i :: is, j2len, best =>
    let js := selectJs blo bhi (b2j b (a.getD i ""))
    let res := innerLoop j2len i js (fun _ => 0) best
    phase1 a b blo bhi is res.1 res.2

/-- The backward (non-junk) extension loop of `find_longest_match`:
`while besti > alo and bestj > blo and a[besti-1] == b[bestj-1]:
besti, bestj, bestsize = besti-1, bestj-1, bestsize+1`.  `besti`
decreases by one at each iteration, so the recursion is structural in
`besti`; at `besti = 0` the `besti > alo` guard is false and the loop
exits at once. -/
def extendBack (a b : List String) (alo blo : Nat) : Nat → Nat → Nat → Nat × Nat × Nat
  | 0, bestj, bestsize => (0, bestj, bestsize)
  | besti + 1, bestj, bestsize =>
    if alo < besti + 1 ∧ blo < bestj ∧ a.getD besti "" = b.getD (bestj - 1) "" then
      extendBack a b alo blo besti (bestj - 1) (bestsize + 1)
    else (besti + 1, bestj, bestsize)

/-- The forward (non-junk) extension loop of `find_longest_match`, with
explicit fuel: the loop raises `bestsize` while `besti + bestsize < ahi`
holds, so fuel `ahi - bestsize` is exact and is never exhausted
(`extendFwd_eq` below recovers the source's loop equation). -/
def extendFwdF (a b : List String) (ahi bhi besti bestj : Nat) : Nat → Nat → Nat × Nat × Nat
  | 0, bestsize => (besti, bestj, bestsize)
  | fuel + 1, bestsize =>
    if besti + bestsize < ahi ∧ bestj + bestsize < bhi ∧
        a.getD (besti + bestsize) "" = b.getD (bestj + bestsize) "" then
      extendFwdF a b ahi bhi besti bestj fuel (bestsize + 1)
    else (besti, bestj, bestsize)

/-- `while besti+bestsize < ahi and bestj+bestsize < bhi and
a[besti+bestsize] == b[bestj+bestsize]: bestsize += 1`. -/
def extendFwd (a b : List String) (ahi bhi besti bestj bestsize : Nat) : Nat × Nat × Nat :=
  extendFwdF a b ahi bhi besti bestj (ahi - bestsize) bestsize

/-- `SequenceMatcher.find_longest_match(alo, ahi, blo, bhi)`. -/
def find_longest_match (a b : List String) (alo ahi blo bhi : Nat) : Nat × Nat × Nat :=
  let p := phase1 a b blo bhi (List.range' alo (ahi - alo)) (fun _ => 0) (alo, blo, 0)
  let q := extendBack a b alo blo p.1 p.2.1 p.2.2
  extendFwd a b ahi bhi q.1 q.2.1 q.2.2

/-- The recursion of `get_matching_blocks` over subranges.  Python keeps
an explicit LIFO queue and sorts the collected triples afterwards; the
in-order recursion below emits the same triples directly in that sorted
order.  `fuel` bounds the recursion depth: every recursive call is on a
strictly smaller subrange, so fuel `(ahi-alo)+(bhi-blo)+1` at the top
call is never exhausted. -/
def mbRec (a b : List String) : Nat → Nat → Nat → Nat → Nat → List (Nat × Nat × Nat)
  | 0, _, _, _, _ => []
  | fuel + 1, alo, ahi, blo, bhi =>
    match find_longest_match a b alo ahi blo bhi with
    | (i, j, k) =>
      if k = 0 then []
      else
        (if alo < i ∧ blo < j then mbRec a b fuel alo i blo j else []) ++
        (i, j, k) ::
        (if i + k < ahi ∧ j + k < bhi then mbRec a b fuel (i + k) ahi (j + k) bhi else [])

/-- The adjacent-block merge at the end of `get_matching_blocks`;
the running triple `(i1, j1, k1)` starts at `(0, 0, 0)`. -/
def mergeAdj : Nat × Nat × Nat → List (Nat × Nat × Nat) → List (Nat × Nat × Nat)
  | (i1, j1, k1), [] => if k1 ≠ 0 then [(i1, j1, k1)] else []
  | (i1, j1, k1), (i2, j2, k2) :: rest =>
    if i1 + k1 = i2 ∧ j1 + k1 = j2 then mergeAdj (i1, j1, k1 + k2) rest
    else (if k1 ≠ 0 then [(i1, j1, k1)] else []) ++ mergeAdj (i2, j2, k2) rest

/-- `SequenceMatcher.get_matching_blocks()`, sentinel `(la, lb, 0)` included. -/
def get_matching_blocks (a b : List String) : List (Nat × Nat × Nat) :=
  mergeAdj (0, 0, 0) (mbRec a b (a.length + b.length + 1) 0 a.length 0 b.length) ++
    [(a.length, b.length, 0)]

inductive Tag
  | replace
  | delete
  | insert
  | equal
deriving DecidableEq, Repr

structure Opcode where
  tag : Tag
  i1 : Nat
  i2 : Nat
  j1 : Nat
  j2 : Nat
deriving DecidableEq, Repr

/-- The loop of `SequenceMatcher.get_opcodes()`; `i`, `j` are the running
positions (initially 0, 0). -/
def opcodesAux : Nat → Nat → List (Nat × Nat × Nat) → List Opcode
  | _, _, [] => []
  | i, j, (ai, bj, size) :: rest =>
    (if i < ai ∧ j < bj then [⟨Tag.replace, i, ai, j, bj⟩]
     else if i < ai then [⟨Tag.delete, i, ai, j, bj⟩]
     else if j < bj then [⟨Tag.insert, i, ai, j, bj⟩]
     else []) ++
    (if size ≠ 0 then [⟨Tag.equal, ai, ai + size, bj, bj + size⟩] else []) ++
    opcodesAux (ai + size) (bj + size) rest

/-- `SequenceMatcher.get_opcodes()`. -/
def get_opcodes (a b : List String) : List Opcode :=
  opcodesAux 0 0 (get_matching_blocks a b)

/-- `get_grouped_opcodes`: shrink a leading `equal` opcode to `n` context lines. -/
def fixupHead (n : Nat) : List Opcode → List Opcode
  | [] => []
  | c :: rest =>
    if c.tag = Tag.equal then
      ⟨c.tag, max c.i1 (c.i2 - n), c.i2, max c.j1 (c.j2 - n), c.j2⟩ :: rest
    else c :: rest

/-- `get_grouped_opcodes`: shrink a trailing `equal` opcode to `n` context lines. -/
def fixupLast (n : Nat) : List Opcode → List Opcode
  | [] => []
  | [c] =>
    if c.tag = Tag.equal then
      [⟨c.tag, c.i1, min c.i2 (c.i1 + n), c.j1, min c.j2 (c.j1 + n)⟩]
    else [c]
  | c :: rest => c :: fixupLast n rest

/-- The grouping loop of `get_grouped_opcodes(n)`: split at `equal` runs
longer than `2n`, and drop a final group that is a single `equal`. -/
def groupLoop (n : Nat) : List Opcode → List Opcode → List (List Opcode)
  | group, [] =>
    if group ≠ [] ∧
        ¬(group.length = 1 ∧ (group.headD ⟨Tag.equal, 0, 0, 0, 0⟩).tag = Tag.equal) then
      [group]
    else []
  | group, c :: rest =>
    if c.tag = Tag.equal ∧ n + n < c.i2 - c.i1 then
      (group ++ [⟨c.tag, c.i1, min c.i2 (c.i1 + n), c.j1, min c.j2 (c.j1 + n)⟩]) ::
        groupLoop n [⟨c.tag, max c.i1 (c.i2 - n), c.i2, max c.j1 (c.j2 - n), c.j2⟩] rest
  else groupLoop n (group ++ [c]) rest

/-- `SequenceMatcher.get_grouped_opcodes(n)` (difflib default `n = 3`). -/
def get_grouped_opcodes (a b : List String) (n : Nat) : List (List Opcode) :=
  let codes := get_opcodes a b
  let codes := if codes = [] then [⟨Tag.equal, 0, 1, 0, 1⟩] else codes
  groupLoop n [] (fixupLast n (fixupHead n codes))

/-- `difflib._format_range_unified`. -/
def formatRangeUnified (start stop : Nat) : String :=
  if stop - start = 1 then toString (start + 1)
  else toString (if stop - start = 0 then start else start + 1) ++ "," ++ toString (stop - start)

/-- Python slice `l[i1:i2]`. -/
def slice (l : List String) (i1 i2 : Nat) : List String :=
  (l.take i2).drop i1

/-- The per-opcode lines of a unified-diff hunk. -/
def opcodeLines (a b : List String) (c : Opcode) : List String :=
  if c.tag = Tag.equal then (slice a c.i1 c.i2).map (fun line => " " ++ line)
  else
    (if c.tag = Tag.replace ∨ c.tag = Tag.delete then
      (slice a c.i1 c.i2).map (fun line => "-" ++ line)
    else []) ++
    (if c.tag = Tag.replace ∨ c.tag = Tag.insert then
      (slice b c.j1 c.j2).map (fun line => "+" ++ line)
    else [])

/-- One hunk of `difflib.unified_diff`: the `@@ -r +r @@` line and the body. -/
def hunkLines (a b : List String) (group : List Opcode) : List String :=
  let fst := group.headD ⟨Tag.equal, 0, 0, 0, 0⟩
  let lst := group.getLastD ⟨Tag.equal, 0, 0, 0, 0⟩
  ("@@ -" ++ formatRangeUnified fst.i1 lst.i2 ++ " +" ++
      formatRangeUnified fst.j1 lst.j2 ++ " @@\n") ::
    (group.map (opcodeLines a b)).flatten

/-- `difflib.unified_diff(a, b, fromfile, tofile)` (default `n=3`,
`lineterm='\n'`, empty file dates): the `---`/`+++` headers are emitted
before the first group only. -/
def unified_diff (a b : List String) (fromfile tofile : String) : List String :=
  match get_grouped_opcodes a b 3 with
  | [] => []
  | groups =>
    ("--- " ++ fromfile ++ "\n") :: ("+++ " ++ tofile ++ "\n") ::
      (groups.map (hunkLines a b)).flatten

/-! ## src/differ.py -/

/-- `DocumentDiffer._compute_unified_diff`. -/
def compute_unified_diff (page_slug old_content new_content : String) : String :=
  String.join (unified_diff (splitlinesKeep old_content) (splitlinesKeep new_content)
    ("a/" ++ page_slug ++ ".md") ("b/" ++ page_slug ++ ".md"))

/-- `DocumentDiffer._count_changes`: distinct-line set differences. -/
def count_changes (old_content new_content : String) : Nat × Nat :=
  (((splitlines new_content).toFinset \ (splitlines old_content).toFinset).card,
   ((splitlines old_content).toFinset \ (splitlines new_content).toFinset).card)

/-- `DocumentDiffer._generate_summary`. -/
def generate_summary (added removed : Nat) : String :=
  if added = 0 ∧ removed = 0 then "Formatting changes"
  else
    String.intercalate ", "
      ((if 0 < added then ["+" ++ toString added ++ " lines"] else []) ++
       (if 0 < removed then ["-" ++ toString removed ++ " lines"] else []))

/-- `DiffResult` (src/differ.py).  `source_id` and `source_name` are the
attributes set dynamically on the dataclass instance by
`DocMonitor.run` (`diff.source_id = self.source.id`); `none` models the
attribute being absent. -/
structure DiffResult where
  page_slug : String
  has_changes : Bool
  old_content : String
  new_content : String
  unified_diff : String
  html_diff : String
  added_lines : Nat
  removed_lines : Nat
  summary : String
  source_id : Option String := none
  source_name : Option String := none
deriving DecidableEq, Repr

/-- `DocumentDiffer` holds a `diff_match_patch` instance, used only to
render the inline HTML diff.  `diff-match-patch` is an external library
(an excluded collaborator per the specification), so the HTML renderer
is a parameter of the embedding. -/
structure DocumentDiffer where
  dmpHtml : String → String → String

/-- `DocumentDiffer.compute_diff`. -/
def compute_diff (differ : DocumentDiffer) (page_slug old_content new_content : String) :
    DiffResult :=
  if old_content = new_content then
    { page_slug := page_slug
      has_changes := false
      old_content := old_content
      new_content := new_content
      unified_diff := ""
      html_diff := ""
      added_lines := 0
      removed_lines := 0
      summary := "No changes" }
  else
    let counts := count_changes old_content new_content
    { page_slug := page_slug
      has_changes := true
      old_content := old_content
      new_content := new_content
      unified_diff := compute_unified_diff page_slug old_content new_content
      html_diff := differ.dmpHtml old_content new_content
      added_lines := counts.1
      removed_lines := counts.2
      summary := generate_summary counts.1 counts.2 }

/-- A concrete `diff_match_patch` HTML renderer stand-in, used only to
instantiate `DocumentDiffer` in closed statements; no claim concerns the
HTML it would produce. -/
def dmpExternal : DocumentDiffer :=
  ⟨fun _ _ => ""⟩

/-! ## src/analyzer.py (data only) -/

/-- `AnalysisResult` (src/analyzer.py). -/
structure AnalysisResult where
  page_slug : String
  analysis : String
  reasoning : String := ""
  source_id : Option String := none
  source_name : Option String := none
deriving DecidableEq, Repr

/-! ## src/reporter.py — `ReportGenerator.generate_daily_index`

The accumulation step is modelled as a pure function from the batches
already persisted in `meta.json` (`[]` when the file does not exist) and
this run's diffs to the updated batch list, the recomputed
`total_changes`, and the display order handed to the template. -/

/-- Python `x or default` on an optional string (`None` and `""` are falsy). -/
def pyOr (o : Option String) (dflt : String) : String :=
  match o with
  | some s => if s = "" then dflt else s
  | none => dflt

/-- One element of a batch's `pages` list (the serialized page dict). -/
structure PageEntry where
  slug : String
  source_id : String
  source_name : String
  summary : String
  added : Nat
  removed : Nat
  analysis : Option String
deriving DecidableEq, Repr

instance : Inhabited PageEntry :=
  ⟨⟨"", "", "", "", 0, 0, none⟩⟩

/-- One element of a batch's `sources` list. -/
structure SourceGroup where
  id : String
  name : String
  pages : List PageEntry
deriving DecidableEq, Repr

/-- One entry of `meta.json`'s `batches` list. -/
structure RunBatch where
  timestamp : String
  sources : List SourceGroup
  pages : List PageEntry
  analysis : Option String
deriving DecidableEq, Repr

/-- `analysis_map = {a.page_slug: a for a in (analyses or [])}` followed by
`analysis_map.get(slug)`: the last entry for a slug wins. -/
def analysisFor (analyses : List AnalysisResult) (slug : String) : Option AnalysisResult :=
  analyses.reverse.find? (fun a => a.page_slug = slug)

/-- The page dict appended to `pages_by_source[source_id]` for one diff
(`serialize_analysis` inlined: `None` or the analysis text). -/
def pageOf (analyses : List AnalysisResult) (d : DiffResult) : PageEntry :=
  let sid := pyOr d.source_id "unknown"
  { slug := d.page_slug
    source_id := sid
    source_name := pyOr d.source_name sid
    summary := d.summary
    added := d.added_lines
    removed := d.removed_lines
    analysis := (analysisFor analyses d.page_slug).map (fun a => a.analysis) }

/-- Append a page under its source key, preserving dict insertion order. -/
def insertPage : List (String × List PageEntry) → String → PageEntry →
    List (String × List PageEntry)
  | [], sid, p => [(sid, [p])]
  | (k, ps) :: rest, sid, p =>
    if k = sid then (k, ps ++ [p]) :: rest
    else (k, ps) :: insertPage rest sid p

/-- The `for d in diffs` loop building `pages_by_source` (diffs with
`has_changes == False` are skipped). -/
def groupBySource (analyses : List AnalysisResult) (diffs : List DiffResult) :
    List (String × List PageEntry) :=
  diffs.foldl
    (fun acc d =>
      if d.has_changes then insertPage acc (pyOr d.source_id "unknown") (pageOf analyses d)
      else acc)
    []

/-- The `new_batch` dict built for this run (`batch_analysis` is attached
only when truthy). -/
def newBatch (diffs : List DiffResult) (analyses : List AnalysisResult)
    (timestamp : String) (batch_analysis : Option String) : RunBatch :=
  let groups := groupBySource analyses diffs
  { timestamp := timestamp
    sources := groups.map (fun g => ⟨g.1, (g.2.headD default).source_name, g.2⟩)
    pages := (groups.map (fun g => g.2)).flatten
    analysis :=
      match batch_analysis with
      | some s => if s = "" then none else some s
      | none => none }

/-- `ReportGenerator.generate_daily_index`: load the existing batches,
append this run's batch, recompute `total_changes` over all batches, and
render most-recent-first.  Returns (persisted batches, total_changes,
display order). -/
def generate_daily_index (existing : List RunBatch) (diffs : List DiffResult)
    (analyses : List AnalysisResult) (timestamp : String) (batch_analysis : Option String) :
    List RunBatch × Nat × List RunBatch :=
  let batches := existing ++ [newBatch diffs analyses timestamp batch_analysis]
  let total := (batches.map (fun b => b.pages.length)).sum
  (batches, total, batches.reverse)

/-- A concrete changed diff, used by closed witness statements. -/
def Diff₀ : DiffResult :=
  { page_slug := "overview"
    has_changes := true
    old_content := "old"
    new_content := "new"
    unified_diff := "diff"
    html_diff := "html"
    added_lines := 1
    removed_lines := 0
    summary := "+1 lines"
    source_id := some "anthropic"
    source_name := some "Anthropic" }

/-- A concrete serialized page entry, used by closed witness statements. -/
def Page₀ : PageEntry :=
  ⟨"overview", "anthropic", "Anthropic", "+1 lines", 1, 0, none⟩

/-- A concrete two-page batch, used by closed witness statements. -/
def Batch₀ : RunBatch :=
  ⟨"09:00 EST", [⟨"anthropic", "Anthropic", [Page₀, Page₀]⟩], [Page₀, Page₀], none⟩

/-- The daily records reachable by the system: an absent `meta.json`
(the day's first run) or the result of accumulating one more run into a
reachable record. -/
inductive ReachableBatches : List RunBatch → Prop
  | init : ReachableBatches []
  | step (existing : List RunBatch) (diffs : List DiffResult)
      (analyses : List AnalysisResult) (ts : String) (ba : Option String) :
      ReachableBatches existing →
      ReachableBatches (generate_daily_index existing diffs analyses ts ba).1

/-! ## src/main.py — the per-page monitoring loop of `DocMonitor.run` -/

/-- `FetchResult` (src/fetcher.py). -/
structure FetchResultM where
  page_slug : String
  content : Option String
  status_code : Nat
  error : Option String := none
deriving DecidableEq, Repr

/-- `FetchResult.is_success`. -/
def FetchResultM.is_success (fr : FetchResultM) : Bool :=
  fr.status_code == 200 && fr.content.isSome

/-- The mutable per-source counters and lists of `SourceRunResult`
accumulated by `DocMonitor.run`. -/
structure SourceRunResultM where
  changed_pages : Nat
  failed_pages : Nat
  diffs : List DiffResult
  errors : List String
deriving Repr

/-- The stored snapshots, keyed by page slug
(`docs_dir / f"{page_slug}.md"`); `none` models a missing file. -/
def Store := String → Option String

/-- The body of `for fetch_result in fetch_results` in `DocMonitor.run`:
failures are counted; otherwise the page is diffed against the stored
snapshot (empty string for a first-seen page), and on a change the diff
is tagged with the source and collected and the new content is saved. -/
def runLoop (differ : DocumentDiffer) (sourceId sourceName : String) :
    List FetchResultM → SourceRunResultM → Store → SourceRunResultM × Store
  | [], acc, store => (acc, store)
  | fr :: rest, acc, store =>
    if fr.is_success then
      let content := fr.content.getD ""
      let old := (store fr.page_slug).getD ""
      let d := compute_diff differ fr.page_slug old content
      if d.has_changes then
        runLoop differ sourceId sourceName rest
          { acc with
            changed_pages := acc.changed_pages + 1
            diffs := acc.diffs ++
              [{ d with source_id := some sourceId, source_name := some sourceName }] }
          (Function.update store fr.page_slug (some content))
      else
        runLoop differ sourceId sourceName rest acc store
    else
      runLoop differ sourceId sourceName rest
        { acc with
          failed_pages := acc.failed_pages + 1
          errors := acc.errors ++ [fr.page_slug ++ ": " ++ fr.error.getD "None"] }
        store

/-- `DocMonitor.run`'s loop started from fresh counters. -/
def runSource (differ : DocumentDiffer) (sourceId sourceName : String)
    (frs : List FetchResultM) (store : Store) : SourceRunResultM × Store :=
  runLoop differ sourceId sourceName frs ⟨0, 0, [], []⟩ store

/-! ## Content normalizer

Modelled from the spec: `normalize_html_content` is referenced by
`tests/test_fetcher.py` (`from src.fetcher import ... normalize_html_content`)
but no file under src/ defines it — `DocumentFetcher.fetch_page` returns
the raw `response.text`, and nothing in src/ applies a normalizer.  The
function itself is therefore modelled here from the spec's description
(corroborated by its tests): it removes volatile `nonce="..."`
attributes — the attribute and its preceding whitespace — leaving
everything else unchanged. -/

/-- The literal `nonce="` that must follow the attribute's whitespace. -/
def nonceLit : List Char := ['n', 'o', 'n', 'c', 'e', '=', '"']

/-- Try to match a volatile-attribute occurrence (whitespace, the literal
`nonce="`, a quote-free value, the closing quote) at the head of `cs`;
on success return the remainder after the match. -/
def tryNonce (cs : List Char) : Option (List Char) :=
  let ws := cs.takeWhile (fun c => c.isWhitespace)
  if ws.isEmpty then none
  else
    let r := cs.drop ws.length
    if r.take 7 = nonceLit then
      let body := r.drop 7
      let v := body.takeWhile (fun c => c ≠ '"')
      if v.length < body.length then some (body.drop (v.length + 1)) else none
    else none

/-- Left-to-right scan removing every volatile-attribute match
(the sub-and-continue behaviour of `re.sub`).  The scan consumes at
least one character per step, so `fuel = length of the input` is never
exhausted; the fuel only makes the recursion structural. -/
def stripNonceFuel : Nat → List Char → List Char
  | 0, _ => []
  | _, [] => []
  | fuel + 1, c :: rest =>
    if c.isWhitespace then
      match tryNonce (c :: rest) with
      | some rest' => stripNonceFuel fuel rest'
      | none => c :: stripNonceFuel fuel rest
    else c :: stripNonceFuel fuel rest

/-- The scan at its sufficient fuel. -/
def stripNonce (cs : List Char) : List Char :=
  stripNonceFuel cs.length cs

/-- Modelled from the spec: `normalize_html_content` (missing from
src/fetcher.py; only its tests are present). -/
def normalize_html_content (content : String) : String :=
  (stripNonce content.data).asString

/-- Whether the scan would remove anything from `cs` (no occurrence of
the volatile-attribute pattern). -/
def hasNonceMatchL : List Char → Bool
  | [] => false
  | c :: rest =>
    if c.isWhitespace then
      match tryNonce (c :: rest) with
      | some _ => true
      | none => hasNonceMatchL rest
    else hasNonceMatchL rest

/-- A literal segment that the scan walks through verbatim even when
followed by arbitrary text: every whitespace position is followed (still
inside the segment) by a non-whitespace character, and never by the
literal `nonce="`.  Such a segment can sit between two volatile
attributes without interacting with them. -/
def chunkClean : List Char → Bool
  | [] => true
  | c :: rest =>
    if c.isWhitespace then
      let r := (c :: rest).dropWhile (fun x => x.isWhitespace)
      if r.isEmpty then false
      else if r.take 7 = nonceLit then false
      else chunkClean rest
    else chunkClean rest

/-- One volatile attribute occurrence with value `v`. -/
def slotStr (v : String) : String :=
  " nonce=\"" ++ v ++ "\""

/-- A string holding nonce attributes with values `pairs.map Prod.fst`
interleaved with the fixed literal segments `head`, `pairs.map Prod.snd`
and `tail`.  Two strings are "identical except for the values of
volatile nonce attributes" precisely when they are `renderNonce` of the
same `head`, chunk list and `tail`, with possibly different values. -/
def renderNonce (head : String) : List (String × String) → String → String
  | [], tail => head ++ tail
  | (v, c) :: ps, tail => head ++ slotStr v ++ renderNonce c ps tail

/-- Whether `pat` occurs as a contiguous subsequence of `s`. -/
def containsSeq (pat s : List Char) : Bool :=
  (List.range (s.length + 1)).any (fun i => (s.drop i).take pat.length == pat)

/-- The claim's equivalence "identical except for the values of volatile
nonce attributes". -/
def EqExceptNonce (a b : String) : Prop :=
  ∃ (head : String) (pairs1 pairs2 : List (String × String)) (tail : String),
    pairs1.map Prod.snd = pairs2.map Prod.snd ∧
    a = renderNonce head pairs1 tail ∧ b = renderNonce head pairs2 tail

/-- No double quote in a nonce value. -/
def noQuote (v : String) : Bool :=
  v.data.all (fun c => c ≠ '"')

/-! ## src/reporter.py — `ReportGenerator.update_main_index`

The report tree on disk is modelled structurally: each directory level
is a list of named entries (`isDir` distinguishes files such as the root
`index.html` from date directories), a day directory carries its
top-level html file names and the parsed `meta.json` if present. -/

/-- Parsed `meta.json` of a day directory; both keys are read with
`.get`, so each may be absent. -/
structure MetaJson where
  timestamp : Option String
  count : Option Nat
deriving DecidableEq, Repr

structure DayDir where
  name : String
  isDir : Bool
  htmlFiles : List String
  meta : Option MetaJson
deriving DecidableEq, Repr

structure MonthDir where
  name : String
  isDir : Bool
  days : List DayDir
deriving DecidableEq, Repr

structure YearDir where
  name : String
  isDir : Bool
  months : List MonthDir
deriving DecidableEq, Repr

/-- One row of the master listing. -/
structure IndexEntry where
  date : String
  timestamp : String
  path : String
  count : Nat
deriving DecidableEq, Repr

/-- Python `str.isdigit` (ASCII digits; nonempty). -/
def isdigitStr (s : String) : Bool :=
  ¬s.data.isEmpty && s.data.all (fun c => c.isDigit)

/-- `sorted(dir.iterdir(), reverse=True)` on names: Python compares
strings lexicographically by code point, i.e. the lexicographic order on
the character lists. -/
def sortNamesDesc {α : Type} (name : α → String) (l : List α) : List α :=
  l.mergeSort (fun x y => decide ((name y).data ≤ (name x).data))

/-- The entry built for one day directory holding an `index.html`. -/
def entryOf (y m : String) (d : DayDir) : IndexEntry :=
  let date := y ++ "-" ++ m ++ "-" ++ d.name
  match d.meta with
  | some meta =>
    { date := date
      timestamp := meta.timestamp.getD date
      path := y ++ "/" ++ m ++ "/" ++ d.name ++ "/"
      count := meta.count.getD 0 }
  | none =>
    { date := date
      timestamp := date
      path := y ++ "/" ++ m ++ "/" ++ d.name ++ "/"
      count := (d.htmlFiles.filter (fun f => f ≠ "index.html")).length }

/-- The day-level loop body of `update_main_index`: skip non-directories,
non-numeric names, and days without an `index.html`. -/
def dayEntries (y m : String) (d : DayDir) : List IndexEntry :=
  if d.isDir && isdigitStr d.name && d.htmlFiles.contains "index.html" then
    [entryOf y m d]
  else []

/-- The month-level loop of `update_main_index`. -/
def monthEntries (y : String) (m : MonthDir) : List IndexEntry :=
  if m.isDir && isdigitStr m.name then
    ((sortNamesDesc DayDir.name m.days).map (dayEntries y m.name)).flatten
  else []

/-- The year-level loop of `update_main_index`. -/
def yearEntries (y : YearDir) : List IndexEntry :=
  if y.isDir && isdigitStr y.name then
    ((sortNamesDesc MonthDir.name y.months).map (monthEntries y.name)).flatten
  else []

/-- `ReportGenerator.update_main_index`: scan year/month/day directories
in reverse-sorted name order, appending an entry per day directory that
holds an `index.html`. -/
def update_main_index (years : List YearDir) : List IndexEntry :=
  ((sortNamesDesc YearDir.name years).map yearEntries).flatten

/-- The tree shapes produced by `_get_date_dir` (`f"{y:04d}/{m:02d}/{d:02d}"`):
zero-padded fixed-width directory names, distinct at every level. -/
def WFTree (years : List YearDir) : Prop :=
  (years.map YearDir.name).Nodup ∧
  ∀ y ∈ years, y.name.length = 4 ∧
    (y.months.map MonthDir.name).Nodup ∧
    ∀ m ∈ y.months, m.name.length = 2 ∧ (m.days.map DayDir.name).Nodup

instance (years : List YearDir) : Decidable (WFTree years) := by
  unfold WFTree
  infer_instance

/-- The concrete report tree with daily records for 2026-01-01,
2026-01-05 and 2025-12-31. -/
def Tree₀ : List YearDir :=
  [⟨"2026", true, [⟨"01", true,
      [⟨"01", true, ["index.html"], none⟩, ⟨"05", true, ["index.html"], none⟩]⟩]⟩,
   ⟨"2025", true, [⟨"12", true, [⟨"31", true, ["index.html"], none⟩]⟩]⟩]

/-! ## Verification predicates for the `SequenceMatcher` embedding

Specification-side predicates (not part of the source translation) used
to state and prove that `find_longest_match` returns genuine in-range
matches and that `get_matching_blocks` returns a sorted chain of such
matches. -/

/-- The triple `(i, j, k)` denotes a genuine match: `a[i:i+k] == b[j:j+k]`. -/
def MatchT (a b : List String) (t : Nat × Nat × Nat) : Prop :=
  slice a t.1 (t.1 + t.2.2) = slice b t.2.1 (t.2.1 + t.2.2)

/-- The running best triple of `find_longest_match` is an in-range match. -/
def BestOK (a b : List String) (alo blo ahi bhi : Nat) (t : Nat × Nat × Nat) : Prop :=
  alo ≤ t.1 ∧ blo ≤ t.2.1 ∧ t.1 + t.2.2 ≤ ahi ∧ t.2.1 + t.2.2 ≤ bhi ∧ MatchT a b t

/-- Invariant of the `j2len` dict after the row ending at `i` (exclusive):
a nonzero entry at key `j` records a genuine match of that length ending
at `a`-position `i` and `b`-position `j + 1`, reaching back no further
than `alo` and `blo`. -/
def DictOK (a b : List String) (alo blo i : Nat) (f : Nat → Nat) : Prop :=
  ∀ j, f j ≠ 0 → alo + f j ≤ i ∧ blo + f j ≤ j + 1 ∧
    slice a (i - f j) i = slice b (j + 1 - f j) (j + 1)

/-- The triples form a chain starting no earlier than `(i, j)`, each block
starting no earlier than the end of the previous one, with the final end
at or before `e`. -/
def ChainB (e : Nat × Nat) : Nat → Nat → List (Nat × Nat × Nat) → Prop
  | i, j, [] => i ≤ e.1 ∧ j ≤ e.2
  | i, j, (ai, bj, k) :: rest => i ≤ ai ∧ j ≤ bj ∧ ChainB e (ai + k) (bj + k) rest

/-! # Theorems

## Helper lemmas: grouping in `generate_daily_index` -/

theorem insertPage_sum (acc : List (String × List PageEntry)) (sid : String) (p : PageEntry) :
    ((insertPage acc sid p).map (fun g => g.2.length)).sum =
      ((acc.map (fun g => g.2.length)).sum) + 1 := by
  induction acc with
  | nil => simp [insertPage]
  | cons kps rest ih =>
    obtain ⟨k, ps⟩ := kps
    by_cases h : k = sid <;> simp [insertPage, h, ih] <;> omega

theorem groupFold_sum (analyses : List AnalysisResult) :
    ∀ (diffs : List DiffResult) (acc : List (String × List PageEntry)),
      ((diffs.foldl
          (fun acc d =>
            if d.has_changes then insertPage acc (pyOr d.source_id "unknown") (pageOf analyses d)
            else acc)
          acc).map (fun g => g.2.length)).sum =
        ((acc.map (fun g => g.2.length)).sum) +
          (diffs.filter (fun d => d.has_changes)).length := by
  intro diffs
  induction diffs with
  | nil => simp
  | cons d rest ih =>
    intro acc
    cases h : d.has_changes <;>
      simp [List.foldl_cons, List.filter_cons, h, ih, insertPage_sum] <;> omega

theorem newBatch_pages_length (diffs : List DiffResult) (analyses : List AnalysisResult)
    (ts : String) (ba : Option String) :
    (newBatch diffs analyses ts ba).pages.length =
      (diffs.filter (fun d => d.has_changes)).length := by
  have h := groupFold_sum analyses diffs []
  simp only [List.map_nil, List.sum_nil, Nat.zero_add] at h
  simp only [newBatch, groupBySource, List.length_flatten, List.map_map]
  simpa [Function.comp_def] using h

theorem insertPage_mem (acc : List (String × List PageEntry)) (sid : String)
    (p q : PageEntry) :
    (∃ g ∈ insertPage acc sid p, q ∈ g.2) ↔ (∃ g ∈ acc, q ∈ g.2) ∨ q = p := by
  induction acc with
  | nil => simp [insertPage]
  | cons kps rest ih =>
    obtain ⟨k, ps⟩ := kps
    rcases eq_or_ne k sid with h | h
    · subst h
      rw [show insertPage ((k, ps) :: rest) k p = (k, ps ++ [p]) :: rest from by
        simp [insertPage]]
      simp only [List.mem_cons, List.mem_append, List.mem_singleton]
      constructor
      · rintro ⟨g, hg, hq⟩
        rcases hg with rfl | hg
        · rcases List.mem_append.mp hq with hq | hq
          · exact Or.inl ⟨(k, ps), Or.inl rfl, hq⟩
          · exact Or.inr (List.mem_singleton.mp hq)
        · exact Or.inl ⟨g, Or.inr hg, hq⟩
      · rintro (⟨g, hg, hq⟩ | hq)
        · rcases hg with rfl | hg
          · exact ⟨(k, ps ++ [p]), Or.inl rfl, List.mem_append.mpr (Or.inl hq)⟩
          · exact ⟨g, Or.inr hg, hq⟩
        · exact ⟨(k, ps ++ [p]), Or.inl rfl, by simp [hq]⟩
    · rw [show insertPage ((k, ps) :: rest) sid p = (k, ps) :: insertPage rest sid p from by
        simp [insertPage, h]]
      simp only [List.mem_cons]
      constructor
      · rintro ⟨g, hg, hq⟩
        rcases hg with rfl | hg
        · exact Or.inl ⟨(k, ps), Or.inl rfl, hq⟩
        · rcases ih.mp ⟨g, hg, hq⟩ with ⟨g', hg', hq'⟩ | hqp
          · exact Or.inl ⟨g', Or.inr hg', hq'⟩
          · exact Or.inr hqp
      · rintro (⟨g, hg, hq⟩ | hq)
        · rcases hg with rfl | hg
          · exact ⟨(k, ps), Or.inl rfl, hq⟩
          · rcases ih.mpr (Or.inl ⟨g, hg, hq⟩) with ⟨g', hg', hq'⟩
            exact ⟨g', Or.inr hg', hq'⟩
        · rcases ih.mpr (Or.inr hq) with ⟨g', hg', hq'⟩
          exact ⟨g', Or.inr hg', hq'⟩

theorem groupFold_mem (analyses : List AnalysisResult) :
    ∀ (diffs : List DiffResult) (acc : List (String × List PageEntry)) (q : PageEntry),
      (∃ g ∈ diffs.foldl
          (fun acc d =>
            if d.has_changes then insertPage acc (pyOr d.source_id "unknown") (pageOf analyses d)
            else acc)
          acc, q ∈ g.2) →
      (∃ g ∈ acc, q ∈ g.2) ∨ ∃ d ∈ diffs, d.has_changes = true ∧ q = pageOf analyses d := by
  intro diffs
  induction diffs with
  | nil => intro acc q h; exact Or.inl h
  | cons d rest ih =>
    intro acc q h
    simp only [List.foldl_cons] at h
    cases hd : d.has_changes with
    | false =>
      rw [hd] at h
      simp only [if_false, Bool.false_eq_true] at h
      rcases ih _ q (by simpa using h) with h' | ⟨d', hd', hc, hq⟩
      · exact Or.inl h'
      · exact Or.inr ⟨d', List.mem_cons_of_mem _ hd', hc, hq⟩
    | true =>
      rw [hd] at h
      simp only [if_true] at h
      rcases ih _ q (by simpa using h) with h' | ⟨d', hd', hc, hq⟩
      · rcases (insertPage_mem _ _ _ _).mp h' with h'' | rfl
        · exact Or.inl h''
        · exact Or.inr ⟨d, List.mem_cons_self _ _, hd, rfl⟩
      · exact Or.inr ⟨d', List.mem_cons_of_mem _ hd', hc, hq⟩

theorem newBatch_mem_group (diffs : List DiffResult) (analyses : List AnalysisResult)
    (g : String × List PageEntry) (q : PageEntry)
    (hg : g ∈ groupBySource analyses diffs) (hq : q ∈ g.2) :
    ∃ d ∈ diffs, d.has_changes = true ∧ q = pageOf analyses d := by
  rcases groupFold_mem analyses diffs [] q ⟨g, hg, hq⟩ with h | h
  · simp at h
  · exact h

/-! ## Claim C1 -/

/-- Claim C1: accumulating a run into a day's record is append-only: the
updated record is the existing batch list with exactly one new batch
appended (so every pre-existing batch, in particular the first, is
unchanged, and none is rewritten or dropped), and `total_changes` is the
sum of page counts over all batches; in the concrete instance of one
existing batch of 2 pages and a run of 3 changed diffs, the record holds
exactly the 2 batches and `total_changes = 5`. -/
theorem C1_append_only_accumulation (existing : List RunBatch) (diffs : List DiffResult)
    (analyses : List AnalysisResult) (ts : String) (ba : Option String) :
    (generate_daily_index existing diffs analyses ts ba).1 =
        existing ++ [newBatch diffs analyses ts ba] ∧
    (generate_daily_index existing diffs analyses ts ba).2.1 =
        ((existing ++ [newBatch diffs analyses ts ba]).map (fun b => b.pages.length)).sum ∧
    (∀ b : RunBatch, b.pages.length = 2 →
      ∀ d1 d2 d3 : DiffResult,
        d1.has_changes = true → d2.has_changes = true → d3.has_changes = true →
        (generate_daily_index [b] [d1, d2, d3] analyses ts ba).1 =
            [b, newBatch [d1, d2, d3] analyses ts ba] ∧
        (generate_daily_index [b] [d1, d2, d3] analyses ts ba).2.1 = 5) := by
  refine ⟨rfl, rfl, ?_⟩
  intro b hb d1 d2 d3 h1 h2 h3
  refine ⟨rfl, ?_⟩
  have hn := newBatch_pages_length [d1, d2, d3] analyses ts ba
  simp only [List.filter_cons, h1, h2, h3, List.filter_nil] at hn
  simp [generate_daily_index, hb, hn]

/-- Witness for C1: the concrete two-page record accumulated with three
changed one-page diffs. -/
theorem C1_append_only_accumulation_witness :
    (Batch₀.pages.length = 2 ∧ Diff₀.has_changes = true) ∧
    (generate_daily_index [Batch₀] [Diff₀, Diff₀, Diff₀] [] "10:00 EST" none).1 =
        [Batch₀, newBatch [Diff₀, Diff₀, Diff₀] [] "10:00 EST" none] ∧
    (generate_daily_index [Batch₀] [Diff₀, Diff₀, Diff₀] [] "10:00 EST" none).2.1 = 5 :=
  ⟨⟨rfl, rfl⟩,
    (C1_append_only_accumulation [Batch₀] [Diff₀, Diff₀, Diff₀] [] "10:00 EST" none).2.2
      Batch₀ rfl Diff₀ Diff₀ Diff₀ rfl rfl rfl⟩

/-! ## Claim C7 -/

theorem runLoop_diffs_changed (differ : DocumentDiffer) (sid sname : String) :
    ∀ (frs : List FetchResultM) (acc : SourceRunResultM) (store : Store) (d : DiffResult),
      d ∈ (runLoop differ sid sname frs acc store).1.diffs →
      d ∈ acc.diffs ∨ d.has_changes = true := by
  intro frs
  induction frs with
  | nil => intro acc store d h; exact Or.inl h
  | cons fr rest ih =>
    intro acc store d h
    by_cases hs : fr.is_success = true
    · simp only [runLoop, hs, if_true] at h
      by_cases hc :
          (compute_diff differ fr.page_slug ((store fr.page_slug).getD "")
            (fr.content.getD "")).has_changes = true
      · rw [if_pos hc] at h
        rcases ih _ _ d h with h' | h'
        · simp only [List.mem_append, List.mem_singleton] at h'
          rcases h' with h' | rfl
          · exact Or.inl h'
          · exact Or.inr hc
        · exact Or.inr h'
      · rw [if_neg hc] at h
        exact ih _ _ d h
    · simp only [runLoop, hs, if_false, Bool.false_eq_true] at h
      have h' := ih _ _ d h
      exact h'

/-- Claim C7: a diff with `has_changes == false` never appears in a
reachable daily record nor among a run's collected diffs: the run
collects only changed diffs, and every page entry of every batch of every
reachable record (both the flat `pages` list and the per-source groups)
is the serialization of a diff with `has_changes = true`. -/
theorem C7_no_unchanged_diff_in_record :
    (∀ (differ : DocumentDiffer) (sid sname : String) (frs : List FetchResultM)
        (store : Store) (d : DiffResult),
        d ∈ (runSource differ sid sname frs store).1.diffs → d.has_changes = true) ∧
    (∀ batches, ReachableBatches batches → ∀ b ∈ batches,
      (∀ p ∈ b.pages,
        ∃ (analyses : List AnalysisResult) (d : DiffResult),
          d.has_changes = true ∧ p = pageOf analyses d) ∧
      (∀ g ∈ b.sources, ∀ p ∈ g.pages,
        ∃ (analyses : List AnalysisResult) (d : DiffResult),
          d.has_changes = true ∧ p = pageOf analyses d)) := by
  constructor
  · intro differ sid sname frs store d h
    rcases runLoop_diffs_changed differ sid sname frs _ store d h with h' | h'
    · simp at h'
    · exact h'
  · intro batches hreach
    induction hreach with
    | init => intro b hb; simp at hb
    | step existing diffs analyses ts ba _ ih =>
      intro b hb
      simp only [generate_daily_index, List.mem_append, List.mem_singleton] at hb
      rcases hb with hb | rfl
      · exact ih b hb
      · constructor
        · intro p hp
          simp only [newBatch, List.mem_flatten, List.mem_map] at hp
          rcases hp with ⟨l, ⟨g, hg, rfl⟩, hp⟩
          rcases newBatch_mem_group diffs analyses g p hg hp with ⟨d, _, hc, hq⟩
          exact ⟨analyses, d, hc, hq⟩
        · intro g hg p hp
          simp only [newBatch, List.mem_map] at hg
          rcases hg with ⟨g', hg', rfl⟩
          rcases newBatch_mem_group diffs analyses g' p hg' hp with ⟨d, _, hc, hq⟩
          exact ⟨analyses, d, hc, hq⟩

/-- Witness for C7: a concrete run over one changed and one unchanged
page collects only the changed diff, and the record reached by
accumulating it satisfies the invariant. -/
theorem C7_no_unchanged_diff_in_record_witness :
    (∀ d ∈ (runSource dmpExternal "anthropic" "Anthropic"
        [⟨"overview", some "new text", 200, none⟩] (fun _ => none)).1.diffs,
      d.has_changes = true) ∧
    (∀ b ∈ (generate_daily_index [] [Diff₀] [] "09:00 EST" none).1,
      (∀ p ∈ b.pages,
        ∃ (analyses : List AnalysisResult) (d : DiffResult),
          d.has_changes = true ∧ p = pageOf analyses d) ∧
      (∀ g ∈ b.sources, ∀ p ∈ g.pages,
        ∃ (analyses : List AnalysisResult) (d : DiffResult),
          d.has_changes = true ∧ p = pageOf analyses d)) :=
  ⟨fun d h => C7_no_unchanged_diff_in_record.1 dmpExternal "anthropic" "Anthropic" _ _ d h,
    C7_no_unchanged_diff_in_record.2 _
      (ReachableBatches.step [] [Diff₀] [] "09:00 EST" none ReachableBatches.init)⟩

/-! ## Claims C2, C5, C6, C10 — the diff engine -/

/-- Claim C2: `added_lines` and `removed_lines` are the sizes of the
distinct-line set differences of the two texts, for every pair of texts
(including equal ones, where both differences are empty); concretely,
`compute(id, "A\nB", "A\nB\nC")` has counts (1, 0), the reverse has
removed count 1, and the one-line edit of `"# A\n\nHello"` to
`"# A\n\nHello world"` counts one full line added and one removed. -/
theorem C2_set_difference_count_semantics :
    (∀ (differ : DocumentDiffer) (id old_content new_content : String),
      (compute_diff differ id old_content new_content).added_lines =
        ((splitlines new_content).toFinset \ (splitlines old_content).toFinset).card ∧
      (compute_diff differ id old_content new_content).removed_lines =
        ((splitlines old_content).toFinset \ (splitlines new_content).toFinset).card) ∧
    (compute_diff dmpExternal "p" "A\nB" "A\nB\nC").added_lines = 1 ∧
    (compute_diff dmpExternal "p" "A\nB" "A\nB\nC").removed_lines = 0 ∧
    (compute_diff dmpExternal "p" "A\nB\nC" "A\nB").removed_lines = 1 ∧
    (compute_diff dmpExternal "p" "# A\n\nHello" "# A\n\nHello world").added_lines = 1 ∧
    (compute_diff dmpExternal "p" "# A\n\nHello" "# A\n\nHello world").removed_lines = 1 := by
  refine ⟨?_, by decide, by decide, by decide, by decide, by decide⟩
  intro differ id old_content new_content
  by_cases h : old_content = new_content
  · subst h
    simp [compute_diff]
  · simp [compute_diff, h, count_changes]

/-- Counterexample to claim C5: pure line reordering (`"A\nB"` to
`"B\nA"`) has `has_changes = true` and both counts zero, yet the summary
is `"Formatting changes"`, not `"No changes"` as the claim states. -/
theorem C5_counterexample :
    (compute_diff dmpExternal "p" "A\nB" "B\nA").has_changes = true ∧
    (compute_diff dmpExternal "p" "A\nB" "B\nA").added_lines = 0 ∧
    (compute_diff dmpExternal "p" "A\nB" "B\nA").removed_lines = 0 ∧
    (compute_diff dmpExternal "p" "A\nB" "B\nA").summary ≠ "No changes" ∧
    (compute_diff dmpExternal "p" "A\nB" "B\nA").summary = "Formatting changes" := by
  refine ⟨by decide, by decide, by decide, by decide, by decide⟩

/-- Claim C5 as amended: when `has_changes` is true but both counts are
zero the summary is `"Formatting changes"` (the string `"No changes"` is
used only by the no-change short-circuit record); otherwise the summary
is the `"+N lines, -M lines"` style string omitting a side whose count
is zero. -/
theorem C5_amended_summary (differ : DocumentDiffer) (id old_content new_content : String) :
    ((compute_diff differ id old_content new_content).has_changes = true →
      (compute_diff differ id old_content new_content).added_lines = 0 →
      (compute_diff differ id old_content new_content).removed_lines = 0 →
      (compute_diff differ id old_content new_content).summary = "Formatting changes") ∧
    (0 < (compute_diff differ id old_content new_content).added_lines →
      0 < (compute_diff differ id old_content new_content).removed_lines →
      (compute_diff differ id old_content new_content).summary =
        "+" ++ toString (compute_diff differ id old_content new_content).added_lines ++
          " lines" ++ ", " ++
          ("-" ++ toString (compute_diff differ id old_content new_content).removed_lines ++
            " lines")) ∧
    (0 < (compute_diff differ id old_content new_content).added_lines →
      (compute_diff differ id old_content new_content).removed_lines = 0 →
      (compute_diff differ id old_content new_content).summary =
        "+" ++ toString (compute_diff differ id old_content new_content).added_lines ++
          " lines") ∧
    ((compute_diff differ id old_content new_content).added_lines = 0 →
      0 < (compute_diff differ id old_content new_content).removed_lines →
      (compute_diff differ id old_content new_content).summary =
        "-" ++ toString (compute_diff differ id old_content new_content).removed_lines ++
          " lines") := by
  by_cases h : old_content = new_content
  · subst h
    refine ⟨?_, ?_, ?_, ?_⟩ <;> simp [compute_diff]
  · have hd :
        compute_diff differ id old_content new_content =
          { page_slug := id
            has_changes := true
            old_content := old_content
            new_content := new_content
            unified_diff := compute_unified_diff id old_content new_content
            html_diff := differ.dmpHtml old_content new_content
            added_lines := (count_changes old_content new_content).1
            removed_lines := (count_changes old_content new_content).2
            summary := generate_summary (count_changes old_content new_content).1
              (count_changes old_content new_content).2 } := by
      simp [compute_diff, h]
    rw [hd]
    simp only
    refine ⟨?_, ?_, ?_, ?_⟩
    · intro _ ha hr
      simp [generate_summary, ha, hr]
    · intro ha hr
      have hcond : ¬((count_changes old_content new_content).1 = 0 ∧
          (count_changes old_content new_content).2 = 0) := by omega
      simp only [generate_summary, if_neg hcond, if_pos ha, if_pos hr]
      rfl
    · intro ha hr
      have hcond : ¬((count_changes old_content new_content).1 = 0 ∧
          (count_changes old_content new_content).2 = 0) := by omega
      have hr' : ¬(0 < (count_changes old_content new_content).2) := by omega
      simp only [generate_summary, if_neg hcond, if_pos ha, if_neg hr']
      rfl
    · intro ha hr
      have hcond : ¬((count_changes old_content new_content).1 = 0 ∧
          (count_changes old_content new_content).2 = 0) := by omega
      have ha' : ¬(0 < (count_changes old_content new_content).1) := by omega
      simp only [generate_summary, if_neg hcond, if_neg ha', if_pos hr]
      rfl

/-- Witness for C5 as amended: a concrete pure addition yields summary
`"+1 lines"`, the zero removed side omitted. -/
theorem C5_amended_summary_witness :
    0 < (compute_diff dmpExternal "p" "A" "A\nB").added_lines ∧
    (compute_diff dmpExternal "p" "A" "A\nB").removed_lines = 0 ∧
    (compute_diff dmpExternal "p" "A" "A\nB").summary = "+1 lines" :=
  ⟨by decide, by decide,
    by
      have h := (C5_amended_summary dmpExternal "p" "A" "A\nB").2.2.1 (by decide) (by decide)
      simpa using h⟩

/-- Claim C6: for every text `T`, `compute(id, T, T)` short-circuits to
the no-change record: `has_changes = false`, empty unified and inline
diffs, both counts zero (and summary `"No changes"`). -/
theorem C6_no_change_short_circuit (differ : DocumentDiffer) (id T : String) :
    compute_diff differ id T T =
      { page_slug := id
        has_changes := false
        old_content := T
        new_content := T
        unified_diff := ""
        html_diff := ""
        added_lines := 0
        removed_lines := 0
        summary := "No changes" } := by
  simp [compute_diff]

/-- Claim C10: a first-seen page (no stored snapshot, `store slug = none`)
is diffed against the empty string by the run loop; for non-empty fetched
content the resulting record has `has_changes = true`, `old_content = ""`,
removed count 0, and added count the number of distinct lines of the
fetched content. -/
theorem C10_first_seen_page (differ : DocumentDiffer) (sid sname slug content : String)
    (rest : List FetchResultM) (acc : SourceRunResultM) (store : Store)
    (hstore : store slug = none) (hne : content ≠ "") :
    (store slug).getD "" = "" ∧
    runLoop differ sid sname (⟨slug, some content, 200, none⟩ :: rest) acc store =
      runLoop differ sid sname rest
        { acc with
          changed_pages := acc.changed_pages + 1
          diffs := acc.diffs ++
            [{ compute_diff differ slug "" content with
                source_id := some sid
                source_name := some sname }] }
        (Function.update store slug (some content)) ∧
    (compute_diff differ slug "" content).has_changes = true ∧
    (compute_diff differ slug "" content).old_content = "" ∧
    (compute_diff differ slug "" content).removed_lines = 0 ∧
    (compute_diff differ slug "" content).added_lines = (splitlines content).toFinset.card := by
  have hold : (store slug).getD "" = "" := by rw [hstore]; rfl
  have hcd : ("" : String) ≠ content := fun h => hne h.symm
  have hchg : (compute_diff differ slug "" content).has_changes = true := by
    simp [compute_diff, hcd]
  refine ⟨hold, ?_, hchg, ?_, ?_, ?_⟩
  · show (if (⟨slug, some content, 200, none⟩ : FetchResultM).is_success = true then _ else _) = _
    rw [if_pos (by rfl)]
    simp only [hold, Option.getD_some]
    rw [if_pos hchg]
  · simp [compute_diff, hcd]
  · simp [compute_diff, hcd, count_changes, splitlines, splitlinesAux]
  · simp [compute_diff, hcd, count_changes, splitlines, splitlinesAux]

/-- Witness for C10: a concrete first-seen two-line page. -/
theorem C10_first_seen_page_witness :
    ((fun _ => none : Store) "new-page" = none ∧ ("# New Page\n\nContent" : String) ≠ "") ∧
    (compute_diff dmpExternal "new-page" "" "# New Page\n\nContent").has_changes = true ∧
    (compute_diff dmpExternal "new-page" "" "# New Page\n\nContent").old_content = "" ∧
    (compute_diff dmpExternal "new-page" "" "# New Page\n\nContent").removed_lines = 0 ∧
    (compute_diff dmpExternal "new-page" "" "# New Page\n\nContent").added_lines =
      (splitlines "# New Page\n\nContent").toFinset.card :=
  ⟨⟨rfl, by decide⟩,
    ((C10_first_seen_page dmpExternal "s" "S" "new-page" "# New Page\n\nContent" [] ⟨0, 0, [], []⟩
      (fun _ => none) rfl (by decide)).2.2)⟩

/-! ## Claim C8 — the master index -/

theorem mem_sortNamesDesc {α : Type} {name : α → String} {l : List α} {x : α}
    (h : x ∈ sortNamesDesc name l) : x ∈ l :=
  (List.Perm.mem_iff (List.mergeSort_perm l _)).mp h

theorem sortNamesDesc_pairwise {α : Type} (name : α → String) (l : List α)
    (h : (l.map name).Nodup) :
    List.Pairwise (fun x y => List.Lex (· < ·) (name y).data (name x).data)
      (sortNamesDesc name l) := by
  have htrans : ∀ x y z : α, decide ((name y).data ≤ (name x).data) = true →
      decide ((name z).data ≤ (name y).data) = true →
      decide ((name z).data ≤ (name x).data) = true := by
    intro x y z h1 h2
    simp only [decide_eq_true_eq] at h1 h2 ⊢
    exact le_trans h2 h1
  have htotal : ∀ x y : α,
      (decide ((name y).data ≤ (name x).data) ||
        decide ((name x).data ≤ (name y).data)) = true := by
    intro x y
    rcases le_total ((name y).data) ((name x).data) with h' | h' <;> simp [h']
  have hsorted := @List.sorted_mergeSort α
    (fun x y => decide ((name y).data ≤ (name x).data)) htrans htotal l
  have hle : List.Pairwise (fun x y => (name y).data ≤ (name x).data)
      (sortNamesDesc name l) :=
    hsorted.imp (fun hb => by simpa using hb)
  have hperm : List.Perm (sortNamesDesc name l) l := List.mergeSort_perm l _
  have hnd : ((sortNamesDesc name l).map name).Nodup := ((hperm.map name).nodup_iff).mpr h
  have hne : List.Pairwise (fun x y => name x ≠ name y) (sortNamesDesc name l) :=
    List.pairwise_map.mp hnd
  refine (hle.and hne).imp ?_
  rintro x y ⟨h1, h2⟩
  exact lt_of_le_of_ne h1 (fun hdata => h2 (String.ext hdata).symm)

theorem lex_append_of_lt {l1 l2 : List Char} (r1 r2 : List Char)
    (hlen : l1.length = l2.length) (h : List.Lex (· < ·) l1 l2) :
    List.Lex (· < ·) (l1 ++ r1) (l2 ++ r2) := by
  induction h with
  | nil => simp at hlen
  | rel hab => exact List.Lex.rel hab
  | cons h ih => exact List.Lex.cons (ih (by simpa using hlen))

theorem date_lt_of_day_lt {y m dn1 dn2 : String}
    (h : List.Lex (· < ·) dn2.data dn1.data) :
    y ++ "-" ++ m ++ "-" ++ dn2 < y ++ "-" ++ m ++ "-" ++ dn1 := by
  refine String.lt_iff_toList_lt.mpr ?_
  show List.Lex (· < ·) (y ++ "-" ++ m ++ "-" ++ dn2).data (y ++ "-" ++ m ++ "-" ++ dn1).data
  simp only [String.data_append]
  exact List.Lex.append_left _ h _

theorem date_lt_of_month_lt (y : String) {mn1 mn2 : String} (dn1 dn2 : String)
    (hlen : mn2.data.length = mn1.data.length) (h : List.Lex (· < ·) mn2.data mn1.data) :
    y ++ "-" ++ mn2 ++ "-" ++ dn2 < y ++ "-" ++ mn1 ++ "-" ++ dn1 := by
  refine String.lt_iff_toList_lt.mpr ?_
  show List.Lex (· < ·) (y ++ "-" ++ mn2 ++ "-" ++ dn2).data (y ++ "-" ++ mn1 ++ "-" ++ dn1).data
  simp only [String.data_append, List.append_assoc]
  apply List.Lex.append_left
  apply List.Lex.append_left
  exact lex_append_of_lt _ _ hlen h

theorem date_lt_of_year_lt {yn1 yn2 : String} (mn1 mn2 dn1 dn2 : String)
    (hlen : yn2.data.length = yn1.data.length) (h : List.Lex (· < ·) yn2.data yn1.data) :
    yn2 ++ "-" ++ mn2 ++ "-" ++ dn2 < yn1 ++ "-" ++ mn1 ++ "-" ++ dn1 := by
  refine String.lt_iff_toList_lt.mpr ?_
  show List.Lex (· < ·) (yn2 ++ "-" ++ mn2 ++ "-" ++ dn2).data
    (yn1 ++ "-" ++ mn1 ++ "-" ++ dn1).data
  simp only [String.data_append, List.append_assoc]
  exact lex_append_of_lt _ _ hlen h

theorem entryOf_date (y m : String) (d : DayDir) :
    (entryOf y m d).date = y ++ "-" ++ m ++ "-" ++ d.name := by
  unfold entryOf
  cases d.meta <;> rfl

theorem dayEntries_cases (y m : String) (d : DayDir) :
    dayEntries y m d = [] ∨ dayEntries y m d = [entryOf y m d] := by
  unfold dayEntries
  split
  · exact Or.inr rfl
  · exact Or.inl rfl

theorem mem_dayEntries {y m : String} {d : DayDir} {e : IndexEntry}
    (h : e ∈ dayEntries y m d) : e.date = y ++ "-" ++ m ++ "-" ++ d.name := by
  rcases dayEntries_cases y m d with h' | h' <;> rw [h'] at h
  · simp at h
  · rw [List.mem_singleton] at h
    rw [h]
    exact entryOf_date y m d

theorem mem_monthEntries {y : String} {m : MonthDir} {e : IndexEntry}
    (h : e ∈ monthEntries y m) :
    ∃ d ∈ m.days, e.date = y ++ "-" ++ m.name ++ "-" ++ d.name := by
  unfold monthEntries at h
  split at h
  · simp only [List.mem_flatten, List.mem_map] at h
    rcases h with ⟨l, ⟨d, hd, rfl⟩, he⟩
    exact ⟨d, mem_sortNamesDesc hd, mem_dayEntries he⟩
  · simp at h

theorem mem_yearEntries {y : YearDir} {e : IndexEntry} (h : e ∈ yearEntries y) :
    ∃ m ∈ y.months, ∃ d ∈ m.days, e.date = y.name ++ "-" ++ m.name ++ "-" ++ d.name := by
  unfold yearEntries at h
  split at h
  · simp only [List.mem_flatten, List.mem_map] at h
    rcases h with ⟨l, ⟨m, hm, rfl⟩, he⟩
    rcases mem_monthEntries he with ⟨d, hd, hdate⟩
    exact ⟨m, mem_sortNamesDesc hm, d, hd, hdate⟩
  · simp at h

theorem pairwise_monthEntries (y : String) (m : MonthDir)
    (hnd : (m.days.map DayDir.name).Nodup) :
    List.Pairwise (fun e1 e2 => e2.date < e1.date) (monthEntries y m) := by
  unfold monthEntries
  split
  · rw [List.pairwise_flatten]
    constructor
    · intro l hl
      rcases List.mem_map.mp hl with ⟨d, _, rfl⟩
      rcases dayEntries_cases y m.name d with h' | h' <;> rw [h'] <;> simp
    · rw [List.pairwise_map]
      refine (sortNamesDesc_pairwise DayDir.name m.days hnd).imp ?_
      intro d1 d2 hlt e1 he1 e2 he2
      rw [mem_dayEntries he1, mem_dayEntries he2]
      exact date_lt_of_day_lt hlt
  · simp

theorem pairwise_yearEntries (y : YearDir)
    (hndm : (y.months.map MonthDir.name).Nodup)
    (hinfo : ∀ m ∈ y.months, m.name.length = 2 ∧ (m.days.map DayDir.name).Nodup) :
    List.Pairwise (fun e1 e2 => e2.date < e1.date) (yearEntries y) := by
  unfold yearEntries
  split
  · rw [List.pairwise_flatten]
    constructor
    · intro l hl
      rcases List.mem_map.mp hl with ⟨m, hm, rfl⟩
      exact pairwise_monthEntries y.name m (hinfo m (mem_sortNamesDesc hm)).2
    · rw [List.pairwise_map]
      refine (sortNamesDesc_pairwise MonthDir.name y.months hndm).imp_of_mem ?_
      intro m1 m2 h1 h2 hlt e1 he1 e2 he2
      rcases mem_monthEntries he1 with ⟨d1, _, hd1⟩
      rcases mem_monthEntries he2 with ⟨d2, _, hd2⟩
      rw [hd1, hd2]
      have hl1 := (hinfo m1 (mem_sortNamesDesc h1)).1
      have hl2 := (hinfo m2 (mem_sortNamesDesc h2)).1
      refine date_lt_of_month_lt y.name d1.name d2.name ?_ hlt
      show m2.name.length = m1.name.length
      rw [hl1, hl2]
  · simp

theorem pairwise_update_main_index (years : List YearDir) (h : WFTree years) :
    List.Pairwise (fun e1 e2 => e2.date < e1.date) (update_main_index years) := by
  obtain ⟨hnd, hy⟩ := h
  unfold update_main_index
  rw [List.pairwise_flatten]
  constructor
  · intro l hl
    rcases List.mem_map.mp hl with ⟨y, hy', rfl⟩
    have hy'' := hy y (mem_sortNamesDesc hy')
    exact pairwise_yearEntries y hy''.2.1 hy''.2.2
  · rw [List.pairwise_map]
    refine (sortNamesDesc_pairwise YearDir.name years hnd).imp_of_mem ?_
    intro y1 y2 h1 h2 hlt e1 he1 e2 he2
    rcases mem_yearEntries he1 with ⟨m1, _, d1, _, hd1⟩
    rcases mem_yearEntries he2 with ⟨m2, _, d2, _, hd2⟩
    rw [hd1, hd2]
    have hl1 := (hy y1 (mem_sortNamesDesc h1)).1
    have hl2 := (hy y2 (mem_sortNamesDesc h2)).1
    refine date_lt_of_year_lt m1.name m2.name d1.name d2.name ?_ hlt
    show y2.name.length = y1.name.length
    rw [hl1, hl2]

unseal List.merge List.mergeSort in
/-- Claim C8: rebuilding the master index over the daily records for
2026-01-01, 2026-01-05 and 2025-12-31 produces the entry order
[2026-01-05, 2026-01-01, 2025-12-31]; and over every well-formed report
tree (zero-padded numeric directory names, distinct per level) the
entries are sorted newest-first by date. -/
theorem C8_master_index_sort_order :
    (update_main_index Tree₀).map IndexEntry.date =
        ["2026-01-05", "2026-01-01", "2025-12-31"] ∧
    ∀ years, WFTree years →
      List.Pairwise (fun e1 e2 => e2.date < e1.date) (update_main_index years) := by
  constructor
  · decide
  · intro years h
    exact pairwise_update_main_index years h

/-- Witness for C8: the concrete three-day tree is well formed, and its
rebuilt master index is sorted newest-first. -/
theorem C8_master_index_sort_order_witness :
    WFTree Tree₀ ∧
    List.Pairwise (fun e1 e2 => e2.date < e1.date) (update_main_index Tree₀) :=
  ⟨by decide, C8_master_index_sort_order.2 Tree₀ (by decide)⟩

/-! ## Claim C4 — the content normalizer -/

theorem tryNonce_length {cs r : List Char} (h : tryNonce cs = some r) : r.length < cs.length := by
  simp only [tryNonce] at h
  by_cases h1 : (cs.takeWhile (fun c => c.isWhitespace)).isEmpty
  · rw [if_pos h1] at h
    exact absurd h (by simp)
  · rw [if_neg h1] at h
    by_cases h2 :
        ((cs.drop (cs.takeWhile (fun c => c.isWhitespace)).length).take 7) = nonceLit
    · rw [if_pos h2] at h
      by_cases h3 :
          (((cs.drop (cs.takeWhile (fun c => c.isWhitespace)).length).drop 7).takeWhile
              (fun c => decide (c ≠ '"'))).length <
            ((cs.drop (cs.takeWhile (fun c => c.isWhitespace)).length).drop 7).length
      · rw [if_pos h3] at h
        have hr := Option.some.inj h
        have hws : 1 ≤ (cs.takeWhile (fun c => c.isWhitespace)).length := by
          cases hcs : cs.takeWhile (fun c => c.isWhitespace) with
          | nil => rw [hcs] at h1; simp at h1
          | cons _ _ => simp
        have hwsle : (cs.takeWhile (fun c => c.isWhitespace)).length ≤ cs.length :=
          List.Sublist.length_le (List.takeWhile_sublist _)
        rw [← hr]
        simp only [List.length_drop]
        omega
      · rw [if_neg h3] at h
        exact absurd h (by simp)
    · rw [if_neg h2] at h
      exact absurd h (by simp)

theorem stripNonceFuel_congr :
    ∀ (f1 : Nat) (cs : List Char) (f2 : Nat), cs.length ≤ f1 → cs.length ≤ f2 →
      stripNonceFuel f1 cs = stripNonceFuel f2 cs := by
  intro f1
  induction f1 with
  | zero =>
    intro cs f2 h1 _
    have hnil : cs = [] := List.eq_nil_of_length_eq_zero (Nat.le_zero.mp h1)
    subst hnil
    cases f2 <;> rfl
  | succ f ih =>
    intro cs f2 h1 h2
    cases cs with
    | nil => cases f2 <;> rfl
    | cons c rest =>
      cases f2 with
      | zero => simp at h2
      | succ f2' =>
        simp only [List.length_cons] at h1 h2
        simp only [stripNonceFuel]
        by_cases hw : c.isWhitespace = true
        · rw [if_pos hw, if_pos hw]
          cases ht : tryNonce (c :: rest) with
          | some r =>
            have hlen := tryNonce_length ht
            simp only [List.length_cons] at hlen
            exact ih r f2' (by omega) (by omega)
          | none =>
            rw [ih rest f2' (by omega) (by omega)]
        · rw [if_neg hw, if_neg hw]
          rw [ih rest f2' (by omega) (by omega)]

theorem stripNonce_cons_of_not_ws {c : Char} {cs : List Char} (h : c.isWhitespace = false) :
    stripNonce (c :: cs) = c :: stripNonce cs := by
  unfold stripNonce
  simp only [List.length_cons, stripNonceFuel, h, Bool.false_eq_true, if_false]

theorem stripNonce_cons_of_none {c : Char} {cs : List Char} (hw : c.isWhitespace = true)
    (ht : tryNonce (c :: cs) = none) :
    stripNonce (c :: cs) = c :: stripNonce cs := by
  unfold stripNonce
  simp only [List.length_cons, stripNonceFuel, hw, if_true, ht]

theorem stripNonce_cons_of_some {c : Char} {cs r : List Char} (hw : c.isWhitespace = true)
    (ht : tryNonce (c :: cs) = some r) :
    stripNonce (c :: cs) = stripNonce r := by
  have hlen := tryNonce_length ht
  simp only [List.length_cons] at hlen
  unfold stripNonce
  simp only [List.length_cons, stripNonceFuel, hw, if_true, ht]
  exact stripNonceFuel_congr cs.length r r.length (by omega) le_rfl

theorem tryNonce_slot (v rest : List Char) (hv : v.all (fun c => decide (c ≠ '"')) = true) :
    tryNonce (' ' :: (nonceLit ++ (v ++ '"' :: rest))) = some rest := by
  have hsp : (' ' : Char).isWhitespace = true := by decide
  have hn : ('n' : Char).isWhitespace = false := by decide
  have hws : (' ' :: (nonceLit ++ (v ++ '"' :: rest))).takeWhile (fun c => c.isWhitespace) =
      [' '] := by
    rw [List.takeWhile_cons_of_pos hsp]
    simp only [nonceLit, List.cons_append]
    rw [List.takeWhile_cons_of_neg (by simp [hn])]
  simp only [tryNonce]
  rw [hws]
  simp only [List.isEmpty_cons, List.length_cons, List.length_nil]
  rw [if_neg (by simp)]
  have hdrop : (' ' :: (nonceLit ++ (v ++ '"' :: rest))).drop 1 =
      nonceLit ++ (v ++ '"' :: rest) := rfl
  rw [hdrop]
  have htake : (nonceLit ++ (v ++ '"' :: rest)).take 7 = nonceLit := by
    rw [show (7 : Nat) = nonceLit.length from rfl]
    exact List.take_left nonceLit _
  rw [if_pos htake]
  have hbody : (nonceLit ++ (v ++ '"' :: rest)).drop 7 = v ++ '"' :: rest := by
    rw [show (7 : Nat) = nonceLit.length from rfl]
    exact List.drop_left nonceLit _
  rw [hbody]
  have hvtake : (v ++ '"' :: rest).takeWhile (fun c => decide (c ≠ '"')) = v := by
    rw [List.takeWhile_append_of_pos (by simpa using fun a ha => List.all_eq_true.mp hv a ha)]
    rw [List.takeWhile_cons_of_neg (by simp)]
    simp
  rw [hvtake]
  rw [if_pos (by simp)]
  have hfin : (v ++ '"' :: rest).drop (v.length + 1) = rest := by
    have : v ++ '"' :: rest = (v ++ ['"']) ++ rest := by simp
    rw [this, show v.length + 1 = (v ++ ['"']).length by simp]
    exact List.drop_left _ _
  rw [hfin]

theorem head_dropWhile_false {p : Char → Bool} :
    ∀ {l : List Char} {a : Char} {t : List Char}, l.dropWhile p = a :: t → p a = false := by
  intro l
  induction l with
  | nil => intro a t h; simp [List.dropWhile] at h
  | cons c cs ih =>
    intro a t h
    by_cases hp : p c = true
    · rw [List.dropWhile_cons_of_pos hp] at h
      exact ih h
    · rw [List.dropWhile_cons_of_neg hp] at h
      obtain ⟨rfl, -⟩ := List.cons.inj h
      simpa using hp

theorem tryNonce_none_mid {c : Char} {cs X : List Char} (hw : c.isWhitespace = true)
    (hne : ((c :: cs).dropWhile (fun x => x.isWhitespace)).isEmpty = false)
    (hlit : ¬(((c :: cs).dropWhile (fun x => x.isWhitespace)).take 7 = nonceLit))
    (hX : X = [] ∨ ∃ X', X = ' ' :: X') :
    tryNonce (c :: (cs ++ X)) = none := by
  rw [← List.cons_append]
  obtain ⟨rh, rt, hr⟩ : ∃ rh rt,
      (c :: cs).dropWhile (fun x => x.isWhitespace) = rh :: rt := by
    cases hr0 : (c :: cs).dropWhile (fun x => x.isWhitespace) with
    | nil => rw [hr0] at hne; simp at hne
    | cons rh rt => exact ⟨rh, rt, rfl⟩
  have hrh : rh.isWhitespace = false := head_dropWhile_false hr
  have hwall : ∀ a ∈ (c :: cs).takeWhile (fun x => x.isWhitespace), a.isWhitespace = true := by
    intro a ha
    have := List.all_takeWhile (l := c :: cs) (p := fun x => x.isWhitespace)
    exact List.all_eq_true.mp this a ha
  have hsplit : (c :: cs) ++ X =
      ((c :: cs).takeWhile (fun x => x.isWhitespace)) ++
        (((c :: cs).dropWhile (fun x => x.isWhitespace)) ++ X) := by
    rw [← List.append_assoc, List.takeWhile_append_dropWhile]
  have hrt : ((rh :: (rt ++ X)).takeWhile (fun x => x.isWhitespace) : List Char) = [] :=
    List.takeWhile_cons_of_neg (by simp [hrh])
  have htw : ((c :: cs) ++ X).takeWhile (fun x => x.isWhitespace) =
      (c :: cs).takeWhile (fun x => x.isWhitespace) := by
    rw [hsplit, List.takeWhile_append_of_pos hwall, hr, List.cons_append, hrt,
      List.append_nil]
  have hwne : ¬(((c :: cs).takeWhile (fun x => x.isWhitespace)).isEmpty = true) := by
    rw [List.takeWhile_cons_of_pos hw]
    simp
  have hdropw : ((c :: cs) ++ X).drop
      ((c :: cs).takeWhile (fun x => x.isWhitespace)).length =
      ((c :: cs).dropWhile (fun x => x.isWhitespace)) ++ X := by
    rw [hsplit]
    exact List.drop_left _ _
  simp only [tryNonce]
  rw [htw, if_neg hwne, hdropw]
  rw [if_neg ?_]
  by_cases hrlen : 7 ≤ ((c :: cs).dropWhile (fun x => x.isWhitespace)).length
  · rw [List.take_append_of_le_length hrlen]
    exact hlit
  · push_neg at hrlen
    rcases hX with rfl | ⟨X', rfl⟩
    · rw [List.append_nil]
      intro hcontra
      have h7 : ((c :: cs).dropWhile (fun x => x.isWhitespace)).take 7 =
          (c :: cs).dropWhile (fun x => x.isWhitespace) :=
        List.take_of_length_le (by omega)
      rw [h7] at hcontra
      have := congrArg List.length hcontra
      simp [nonceLit] at this
      omega
    · intro hcontra
      have hdropEq := congrArg
        (List.drop ((c :: cs).dropWhile (fun x => x.isWhitespace)).length) hcontra
      rw [List.drop_take, List.drop_left] at hdropEq
      obtain ⟨k, hk⟩ : ∃ k,
          7 - ((c :: cs).dropWhile (fun x => x.isWhitespace)).length = k + 1 :=
        ⟨7 - ((c :: cs).dropWhile (fun x => x.isWhitespace)).length - 1, by omega⟩
      rw [hk, List.take_succ_cons] at hdropEq
      have hmem : ' ' ∈ nonceLit.drop
          ((c :: cs).dropWhile (fun x => x.isWhitespace)).length := by
        rw [← hdropEq]
        exact List.mem_cons_self _ _
      have := List.drop_subset _ _ hmem
      exact absurd this (by decide)

theorem chunkClean_cons_not_ws {c : Char} {cs : List Char} (h : c.isWhitespace = false) :
    chunkClean (c :: cs) = chunkClean cs := by
  simp only [chunkClean, h, Bool.false_eq_true, if_false]

theorem chunkClean_cons_ws {c : Char} {cs : List Char} (h : c.isWhitespace = true)
    (hc : chunkClean (c :: cs) = true) :
    ((c :: cs).dropWhile (fun x => x.isWhitespace)).isEmpty = false ∧
    ¬(((c :: cs).dropWhile (fun x => x.isWhitespace)).take 7 = nonceLit) ∧
    chunkClean cs = true := by
  simp only [chunkClean, h, if_true] at hc
  by_cases h1 : ((c :: cs).dropWhile (fun x => x.isWhitespace)).isEmpty = true
  · rw [if_pos h1] at hc
    exact absurd hc (by simp)
  · rw [if_neg h1] at hc
    by_cases h2 : ((c :: cs).dropWhile (fun x => x.isWhitespace)).take 7 = nonceLit
    · rw [if_pos h2] at hc
      exact absurd hc (by simp)
    · rw [if_neg h2] at hc
      exact ⟨by simpa using h1, h2, hc⟩

theorem stripNonce_chunk_slot :
    ∀ (chunk v rest : List Char), chunkClean chunk = true →
      v.all (fun c => decide (c ≠ '"')) = true →
      stripNonce (chunk ++ (' ' :: (nonceLit ++ (v ++ '"' :: rest)))) =
        chunk ++ stripNonce rest := by
  intro chunk
  induction chunk with
  | nil =>
    intro v rest _ hv
    exact stripNonce_cons_of_some (by decide) (tryNonce_slot v rest hv)
  | cons c cs ih =>
    intro v rest hclean hv
    by_cases hw : c.isWhitespace = true
    · obtain ⟨h1, h2, h3⟩ := chunkClean_cons_ws hw hclean
      have hnone : tryNonce (c :: (cs ++ (' ' :: (nonceLit ++ (v ++ '"' :: rest))))) = none :=
        tryNonce_none_mid hw h1 h2 (Or.inr ⟨_, rfl⟩)
      exact (@stripNonce_cons_of_none c (cs ++ (' ' :: (nonceLit ++ (v ++ '"' :: rest))))
        hw hnone).trans
        (by rw [ih v rest h3 hv]; exact (List.cons_append c cs (stripNonce rest)).symm)
    · have hw' : c.isWhitespace = false := by simpa using hw
      have h3 : chunkClean cs = true := by
        rw [← chunkClean_cons_not_ws hw']
        exact hclean
      exact (@stripNonce_cons_of_not_ws c (cs ++ (' ' :: (nonceLit ++ (v ++ '"' :: rest))))
        hw').trans
        (by rw [ih v rest h3 hv]; exact (List.cons_append c cs (stripNonce rest)).symm)

theorem renderNonce_cons_data (head v c tail : String) (ps : List (String × String)) :
    (renderNonce head ((v, c) :: ps) tail).data =
      head.data ++ (' ' :: (nonceLit ++ (v.data ++ '"' :: (renderNonce c ps tail).data))) := by
  show (head ++ slotStr v ++ renderNonce c ps tail).data = _
  simp only [String.data_append, slotStr, List.append_assoc,
    show (" nonce=\"" : String).data = ' ' :: nonceLit from rfl,
    show ("\"" : String).data = ['"'] from rfl, List.cons_append, List.singleton_append]
  simp [nonceLit]

theorem strip_render :
    ∀ (pairs1 pairs2 : List (String × String)) (head tail : String),
      pairs1.map Prod.snd = pairs2.map Prod.snd →
      chunkClean head.data = true →
      (∀ p ∈ pairs1, noQuote p.1 = true ∧ chunkClean p.2.data = true) →
      (∀ p ∈ pairs2, noQuote p.1 = true ∧ chunkClean p.2.data = true) →
      stripNonce (renderNonce head pairs1 tail).data =
        stripNonce (renderNonce head pairs2 tail).data := by
  intro pairs1
  induction pairs1 with
  | nil =>
    intro pairs2 head tail hsnd _ _ _
    have h2 : pairs2 = [] := by
      cases pairs2 with
      | nil => rfl
      | cons p ps => simp at hsnd
    subst h2
    rfl
  | cons p ps ih =>
    intro pairs2 head tail hsnd hhead h1 h2
    obtain ⟨v1, c1⟩ := p
    cases pairs2 with
    | nil => simp at hsnd
    | cons q qs =>
      obtain ⟨v2, c2⟩ := q
      simp only [List.map_cons, List.cons.injEq] at hsnd
      obtain ⟨hc, hsnd'⟩ := hsnd
      subst hc
      rw [renderNonce_cons_data, renderNonce_cons_data]
      rw [stripNonce_chunk_slot head.data v1.data _ hhead (h1 (v1, c1) (by simp)).1]
      rw [stripNonce_chunk_slot head.data v2.data _ hhead (h2 (v2, c1) (by simp)).1]
      congr 1
      exact ih qs c1 tail hsnd' (h1 (v1, c1) (by simp)).2
        (fun r hr => h1 r (by simp [hr])) (fun r hr => h2 r (by simp [hr]))

theorem stripNonce_id_of_no_match :
    ∀ cs : List Char, hasNonceMatchL cs = false → stripNonce cs = cs := by
  intro cs
  induction cs with
  | nil => intro _; rfl
  | cons c rest ih =>
    intro h
    by_cases hw : c.isWhitespace = true
    · cases ht : tryNonce (c :: rest) with
      | some r => simp [hasNonceMatchL, hw, ht] at h
      | none =>
        have h' : hasNonceMatchL rest = false := by
          simpa [hasNonceMatchL, hw, ht] using h
        rw [stripNonce_cons_of_none hw ht, ih h']
    · have hw' : c.isWhitespace = false := by simpa using hw
      have h' : hasNonceMatchL rest = false := by
        simpa [hasNonceMatchL, hw'] using h
      rw [stripNonce_cons_of_not_ws hw', ih h']

theorem renderNonce_contains (head v c tail : String) (ps : List (String × String)) :
    containsSeq (' ' :: nonceLit) (renderNonce head ((v, c) :: ps) tail).data = true := by
  have hform := renderNonce_cons_data head v c tail ps
  show (List.range _).any _ = true
  rw [List.any_eq_true]
  refine ⟨head.data.length, ?_, ?_⟩
  · rw [List.mem_range, hform]
    simp only [List.length_append]
    omega
  · rw [beq_iff_eq, hform, List.drop_left]
    show (' ' :: (nonceLit ++ _)).take (' ' :: nonceLit).length = ' ' :: nonceLit
    rw [show (' ' :: (nonceLit ++ (v.data ++ '"' :: (renderNonce c ps tail).data))) =
      (' ' :: nonceLit) ++ (v.data ++ '"' :: (renderNonce c ps tail).data) from rfl]
    exact List.take_left _ _

/-- Counterexample to claim C4: the claim's second half fails — the
strings `<div nonce="A">x` and `<div>x` are not identical-except-nonce-
values (the second holds no nonce attribute at all), yet they normalize
to the same output, so inputs differing in another way need not stay
distinguishable. -/
theorem C4_counterexample :
    normalize_html_content "<div nonce=\"A\">x" = normalize_html_content "<div>x" ∧
    ("<div nonce=\"A\">x" : String) ≠ "<div>x" ∧
    ¬EqExceptNonce "<div nonce=\"A\">x" "<div>x" := by
  refine ⟨by decide, by decide, ?_⟩
  rintro ⟨head, p1, p2, tail, hsnd, ha, hb⟩
  cases p1 with
  | nil =>
    cases p2 with
    | cons q qs => simp at hsnd
    | nil =>
      have : ("<div nonce=\"A\">x" : String) = "<div>x" := by
        rw [ha, hb]
      exact absurd this (by decide)
  | cons p ps =>
    cases p2 with
    | nil => simp at hsnd
    | cons q qs =>
      obtain ⟨v2, c2⟩ := q
      have hcontains := renderNonce_contains head v2 c2 tail qs
      rw [← hb] at hcontains
      exact absurd hcontains (by decide)

/-- Claim C4 as amended: two inputs identical except for the values of
their volatile nonce attributes (same literal segments, possibly
different quote-free values, the segments between attributes free of
stray `nonce="` starts) normalize to byte-identical output; the
normalizer is the identity on inputs containing no volatile-attribute
match, hence distinct nonce-free inputs stay distinct; but distinctness
does not extend to arbitrary inputs differing in other ways (see the
counterexample), as the repo's own test pair of genuinely different
contents illustrates positively. -/
theorem C4_amended_nonce_invariance :
    (∀ (head tail : String) (pairs1 pairs2 : List (String × String)),
      pairs1.map Prod.snd = pairs2.map Prod.snd →
      chunkClean head.data = true →
      (∀ p ∈ pairs1, noQuote p.1 = true ∧ chunkClean p.2.data = true) →
      (∀ p ∈ pairs2, noQuote p.1 = true ∧ chunkClean p.2.data = true) →
      normalize_html_content (renderNonce head pairs1 tail) =
        normalize_html_content (renderNonce head pairs2 tail)) ∧
    (∀ s : String, hasNonceMatchL s.data = false → normalize_html_content s = s) ∧
    (∀ s t : String, hasNonceMatchL s.data = false → hasNonceMatchL t.data = false →
      s ≠ t → normalize_html_content s ≠ normalize_html_content t) ∧
    normalize_html_content "<div nonce=\"AAA==\">Old content</div>" ≠
      normalize_html_content "<div nonce=\"BBB==\">New content</div>" := by
  have hid : ∀ s : String, hasNonceMatchL s.data = false → normalize_html_content s = s := by
    intro s h
    show (stripNonce s.data).asString = s
    rw [stripNonce_id_of_no_match s.data h]
    rfl
  refine ⟨?_, hid, ?_, by decide⟩
  · intro head tail p1 p2 hsnd hh h1 h2
    exact congrArg List.asString (strip_render p1 p2 head tail hsnd hh h1 h2)
  · intro s t hs ht hne
    rw [hid s hs, hid t ht]
    exact hne

/-- Witness for C4 as amended: the repository's own test pair — two
fetches of the same page with different nonces — normalizes identically. -/
theorem C4_amended_nonce_invariance_witness :
    (chunkClean ("<link href=\"/s.css\"" : String).data = true ∧
      chunkClean (" /><script src=\"/a.js\"" : String).data = true ∧
      noQuote "AAA==" = true ∧ noQuote "BBB==" = true) ∧
    normalize_html_content (renderNonce "<link href=\"/s.css\""
        [("AAA==", " /><script src=\"/a.js\""), ("AAA==", "")] "></script>") =
      normalize_html_content (renderNonce "<link href=\"/s.css\""
        [("BBB==", " /><script src=\"/a.js\""), ("BBB==", "")] "></script>") :=
  ⟨⟨by decide, by decide, by decide, by decide⟩,
    C4_amended_nonce_invariance.1 "<link href=\"/s.css\"" "></script>"
      [("AAA==", " /><script src=\"/a.js\""), ("AAA==", "")]
      [("BBB==", " /><script src=\"/a.js\""), ("BBB==", "")]
      rfl (by decide) (by decide) (by decide)⟩

/-! ## C9: the unified-diff header labels

`_compute_unified_diff` passes `fromfile=f"a/{page_slug}.md"` and
`tofile=f"b/{page_slug}.md"` to `difflib.unified_diff`.  The lemmas
below establish that on differing inputs the produced diff always
begins with the two header lines `--- a/<slug>.md` and
`+++ b/<slug>.md`: joining `splitlines(keepends=True)` restores the
string, so distinct texts give distinct line lists;
`find_longest_match` returns genuine in-range matches, and
`get_matching_blocks` a sorted chain of them; if every opcode of
`get_opcodes` were `equal` the two line lists would coincide; hence
`get_grouped_opcodes` is nonempty and `unified_diff` emits the header
lines exactly once, at the front. -/

theorem strEq_of_data {x y : String} (h : x.data = y.data) : x = y := by
  cases x
  cases y
  exact congrArg String.mk (by simpa using h)

theorem splitlinesKeepAux_flatten : ∀ (acc cs : List Char),
    (splitlinesKeepAux acc cs).flatten = acc.reverse ++ cs := by
  intro acc cs
  induction acc, cs using splitlinesKeepAux.induct <;>
    simp_all [splitlinesKeepAux, List.isEmpty_iff]

theorem splitlinesKeep_inj {s t : String} (h : splitlinesKeep s = splitlinesKeep t) :
    s = t := by
  have hdata : (splitlinesKeepAux [] s.data) = (splitlinesKeepAux [] t.data) := by
    have hmap := congrArg (List.map String.data) h
    have hx : ∀ l : List Char, (List.asString l).data = l := fun _ => rfl
    simpa [splitlinesKeep, List.map_map, Function.comp_def, hx] using hmap
  have hfl := congrArg List.flatten hdata
  rw [splitlinesKeepAux_flatten, splitlinesKeepAux_flatten] at hfl
  simp only [List.reverse_nil, List.nil_append] at hfl
  exact strEq_of_data hfl

theorem slice_same (l : List String) (m : Nat) : slice l m m = [] := by
  unfold slice
  exact List.drop_eq_nil_of_le (by simp [List.length_take])

theorem slice_snoc (l : List String) (m i : Nat) (h1 : m ≤ i) (h2 : i < l.length) :
    slice l m (i + 1) = slice l m i ++ [l.getD i ""] := by
  unfold slice
  rw [List.take_succ, List.getElem?_eq_getElem h2]
  simp only [Option.toList_some]
  rw [List.drop_append_eq_append_drop]
  have hlen : (l.take i).length = i := by
    rw [List.length_take]; omega
  rw [hlen, show m - i = 0 from by omega, List.drop_zero]
  rw [List.getD_eq_getElem l "" h2]

theorem slice_one (l : List String) (i : Nat) (h : i < l.length) :
    slice l i (i + 1) = [l.getD i ""] := by
  rw [slice_snoc l i i le_rfl h, slice_same, List.nil_append]

theorem slice_append_mid (l : List String) (m n p : Nat) (h1 : m ≤ n) (h2 : n ≤ p) :
    slice l m p = slice l m n ++ slice l n p := by
  unfold slice
  have hsplit : l.take p = l.take n ++ (l.take p).drop n := by
    conv_lhs => rw [← List.take_append_drop n (l.take p)]
    rw [List.take_take, show n ⊓ p = n from inf_eq_left.mpr h2]
  conv_lhs => rw [hsplit]
  rw [List.drop_append_eq_append_drop]
  by_cases hm : m ≤ (l.take n).length
  · rw [show m - (l.take n).length = 0 from by omega, List.drop_zero]
  · push_neg at hm
    have hln : l.length < m := by
      have := List.length_take n l
      omega
    have e1 : (l.take n).drop m = [] := List.drop_eq_nil_of_le (le_of_lt hm)
    have e2 : (l.take p).drop n = [] := List.drop_eq_nil_of_le (by
      have := List.length_take p l
      omega)
    simp [e1, e2]

theorem drop_eq_slice_append (l : List String) (m n : Nat) (h1 : m ≤ n) :
    l.drop m = slice l m n ++ l.drop n := by
  unfold slice
  conv_lhs => rw [show l = l.take n ++ l.drop n from (List.take_append_drop n l).symm]
  rw [List.drop_append_eq_append_drop]
  by_cases hm : m ≤ (l.take n).length
  · rw [show m - (l.take n).length = 0 from by omega, List.drop_zero]
  · push_neg at hm
    have hln : l.length < m := by
      have := List.length_take n l
      omega
    have e1 : l.drop n = [] := List.drop_eq_nil_of_le (by omega)
    simp [e1]

theorem slice_cons_getD (l : List String) (m n : Nat) (h1 : m < n) (h2 : m < l.length) :
    slice l m n = l.getD m "" :: slice l (m + 1) n := by
  unfold slice
  have hm : m < (l.take n).length := by
    rw [List.length_take]; omega
  rw [List.drop_eq_getElem_cons hm]
  congr 1
  rw [List.getElem_take]
  exact (List.getD_eq_getElem l "" h2).symm

theorem mem_selectJs : ∀ (js : List Nat) (blo bhi j : Nat), j ∈ selectJs blo bhi js →
    blo ≤ j ∧ j < bhi ∧ j ∈ js := by
  intro js blo bhi j
  induction js with
  | nil => intro h; simp [selectJs] at h
  | cons x xs ih =>
    intro h
    rw [selectJs] at h
    split at h
    · obtain ⟨h1, h2, h3⟩ := ih h
      exact ⟨h1, h2, List.mem_cons_of_mem _ h3⟩
    · split at h
      · simp at h
      · next hx1 hx2 =>
        rcases List.mem_cons.mp h with rfl | h
        · exact ⟨by omega, by omega, List.mem_cons_self _ _⟩
        · obtain ⟨h1, h2, h3⟩ := ih h
          exact ⟨h1, h2, List.mem_cons_of_mem _ h3⟩

theorem mem_b2j (b : List String) (x : String) (j : Nat) (h : j ∈ b2j b x) :
    j < b.length ∧ b.getD j "" = x := by
  unfold b2j at h
  split at h
  · simp at h
  · unfold b2jRaw at h
    rw [List.mem_filter] at h
    exact ⟨List.mem_range.mp h.1, of_decide_eq_true h.2⟩

theorem extendFwd_eq (a b : List String) (ahi bhi besti bestj bestsize : Nat) :
    extendFwd a b ahi bhi besti bestj bestsize =
      if besti + bestsize < ahi ∧ bestj + bestsize < bhi ∧
          a.getD (besti + bestsize) "" = b.getD (bestj + bestsize) "" then
        extendFwd a b ahi bhi besti bestj (bestsize + 1)
      else (besti, bestj, bestsize) := by
  unfold extendFwd
  rcases hf : ahi - bestsize with _ | m
  · rw [extendFwdF, if_neg]
    rintro ⟨hc1, -, -⟩
    omega
  · rw [extendFwdF]
    by_cases hg : besti + bestsize < ahi ∧ bestj + bestsize < bhi ∧
        a.getD (besti + bestsize) "" = b.getD (bestj + bestsize) ""
    · rw [if_pos hg, if_pos hg, show m = ahi - (bestsize + 1) from by omega]
    · rw [if_neg hg, if_neg hg]

theorem innerLoop_ok (a b : List String) (alo blo ahi bhi i : Nat) (f : Nat → Nat)
    (hia : alo ≤ i) (hib : i < ahi) (hha : ahi ≤ a.length) (hhb : bhi ≤ b.length)
    (hf : DictOK a b alo blo i f) :
    ∀ (js : List Nat) (g : Nat → Nat) (best : Nat × Nat × Nat),
      (∀ j ∈ js, blo ≤ j ∧ j < bhi ∧ b.getD j "" = a.getD i "") →
      DictOK a b alo blo (i + 1) g →
      BestOK a b alo blo ahi bhi best →
      DictOK a b alo blo (i + 1) (innerLoop f i js g best).1 ∧
        BestOK a b alo blo ahi bhi (innerLoop f i js g best).2 := by
  intro js
  induction js with
  | nil =>
    intro g best _ hg hb
    exact ⟨hg, hb⟩
  | cons j js ih =>
    intro g best hjs hg hb
    obtain ⟨hj1, hj2, hj3⟩ := hjs j (List.mem_cons_self j js)
    have hjb : j < b.length := lt_of_lt_of_le hj2 hhb
    have hila : i < a.length := lt_of_lt_of_le hib hha
    simp only [innerLoop]
    set kk := (if j = 0 then 0 else f (j - 1)) + 1 with hkk
    have hk1 : alo + kk ≤ i + 1 ∧ blo + kk ≤ j + 1 ∧
        slice a (i + 1 - kk) (i + 1) = slice b (j + 1 - kk) (j + 1) := by
      by_cases hv : (if j = 0 then 0 else f (j - 1)) = 0
      · rw [hkk, hv]
        refine ⟨by omega, by omega, ?_⟩
        rw [show i + 1 - (0 + 1) = i from by omega, show j + 1 - (0 + 1) = j from by omega]
        rw [slice_one a i hila, slice_one b j hjb, hj3]
      · have hj0 : j ≠ 0 := by
          intro h0
          rw [if_pos h0] at hv
          exact hv rfl
        rw [if_neg hj0] at hv
        obtain ⟨hv1, hv2, hv3⟩ := hf (j - 1) hv
        rw [show j - 1 + 1 = j from by omega] at hv2 hv3
        rw [hkk, if_neg hj0]
        refine ⟨by omega, by omega, ?_⟩
        rw [show i + 1 - (f (j - 1) + 1) = i - f (j - 1) from by omega,
            show j + 1 - (f (j - 1) + 1) = j - f (j - 1) from by omega]
        rw [slice_snoc a (i - f (j - 1)) i (by omega) hila,
            slice_snoc b (j - f (j - 1)) j (by omega) hjb]
        rw [hv3, hj3]
    obtain ⟨hka, hkb, hkc⟩ := hk1
    refine ih (Function.update g j kk)
      (if best.2.2 < kk then (i + 1 - kk, j + 1 - kk, kk) else best)
      (fun j' hj' => hjs j' (List.mem_cons_of_mem _ hj')) ?_ ?_
    · intro j' hne
      by_cases hjj : j' = j
      · subst hjj
        rw [Function.update_same] at hne ⊢
        exact ⟨hka, hkb, hkc⟩
      · rw [Function.update_noteq hjj] at hne ⊢
        exact hg j' hne
    · by_cases hbb : best.2.2 < kk
      · rw [if_pos hbb]
        show alo ≤ i + 1 - kk ∧ blo ≤ j + 1 - kk ∧ i + 1 - kk + kk ≤ ahi ∧
          j + 1 - kk + kk ≤ bhi ∧ MatchT a b (i + 1 - kk, j + 1 - kk, kk)
        refine ⟨by omega, by omega, by omega, by omega, ?_⟩
        show slice a (i + 1 - kk) (i + 1 - kk + kk) = slice b (j + 1 - kk) (j + 1 - kk + kk)
        rw [show i + 1 - kk + kk = i + 1 from by omega,
            show j + 1 - kk + kk = j + 1 from by omega]
        exact hkc
      · rw [if_neg hbb]
        exact hb

theorem phase1_ok (a b : List String) (alo blo ahi bhi : Nat)
    (hha : ahi ≤ a.length) (hhb : bhi ≤ b.length) :
    ∀ (m r : Nat) (f : Nat → Nat) (best : Nat × Nat × Nat),
      alo ≤ r → r + m ≤ ahi →
      DictOK a b alo blo r f →
      BestOK a b alo blo ahi bhi best →
      BestOK a b alo blo ahi bhi (phase1 a b blo bhi (List.range' r m) f best) := by
  intro m
  induction m with
  | zero =>
    intro r f best _ _ _ hb
    simpa [phase1] using hb
  | succ m ih =>
    intro r f best hr hrm hf hb
    rw [List.range'_succ, phase1]
    have hjs : ∀ j ∈ selectJs blo bhi (b2j b (a.getD r "")),
        blo ≤ j ∧ j < bhi ∧ b.getD j "" = a.getD r "" := by
      intro j hj
      obtain ⟨h1, h2, h3⟩ := mem_selectJs _ blo bhi j hj
      exact ⟨h1, h2, (mem_b2j b _ j h3).2⟩
    have hres := innerLoop_ok a b alo blo ahi bhi r f hr (by omega) hha hhb hf
      (selectJs blo bhi (b2j b (a.getD r ""))) (fun _ => 0) best hjs
      (fun j hj => absurd rfl hj) hb
    exact ih (r + 1) _ _ (by omega) (by omega) hres.1 hres.2

theorem extendBack_ok (a b : List String) (alo blo ahi bhi : Nat)
    (hha : ahi ≤ a.length) (hhb : bhi ≤ b.length) :
    ∀ (besti bestj bestsize : Nat),
      BestOK a b alo blo ahi bhi (besti, bestj, bestsize) →
      BestOK a b alo blo ahi bhi (extendBack a b alo blo besti bestj bestsize) := by
  intro besti
  induction besti with
  | zero =>
    intro bestj bestsize h
    simpa [extendBack] using h
  | succ n ih =>
    intro bestj bestsize h
    rw [extendBack]
    split
    · next hc =>
      obtain ⟨hc1, hc2, hc3⟩ := hc
      obtain ⟨h1, h2, h3, h4, h5⟩ :
          alo ≤ n + 1 ∧ blo ≤ bestj ∧ n + 1 + bestsize ≤ ahi ∧ bestj + bestsize ≤ bhi ∧
            MatchT a b (n + 1, bestj, bestsize) := h
      have h5' : slice a (n + 1) (n + 1 + bestsize) = slice b bestj (bestj + bestsize) := h5
      apply ih
      show alo ≤ n ∧ blo ≤ bestj - 1 ∧ n + (bestsize + 1) ≤ ahi ∧
        bestj - 1 + (bestsize + 1) ≤ bhi ∧ MatchT a b (n, bestj - 1, bestsize + 1)
      refine ⟨by omega, by omega, by omega, by omega, ?_⟩
      show slice a n (n + (bestsize + 1)) = slice b (bestj - 1) (bestj - 1 + (bestsize + 1))
      rw [slice_cons_getD a n (n + (bestsize + 1)) (by omega) (by omega),
          slice_cons_getD b (bestj - 1) (bestj - 1 + (bestsize + 1)) (by omega) (by omega)]
      rw [hc3]
      congr 1
      rw [show n + (bestsize + 1) = n + 1 + bestsize from by omega,
          show bestj - 1 + 1 = bestj from by omega,
          show bestj - 1 + (bestsize + 1) = bestj + bestsize from by omega]
      exact h5'
    · exact h

theorem extendFwd_ok (a b : List String) (alo blo ahi bhi : Nat)
    (hha : ahi ≤ a.length) (hhb : bhi ≤ b.length) :
    ∀ (fuel besti bestj bestsize : Nat), ahi - bestsize ≤ fuel →
      BestOK a b alo blo ahi bhi (besti, bestj, bestsize) →
      BestOK a b alo blo ahi bhi (extendFwd a b ahi bhi besti bestj bestsize) := by
  intro fuel
  induction fuel with
  | zero =>
    intro besti bestj bestsize hle h
    rw [extendFwd_eq, if_neg]
    · exact h
    · rintro ⟨hc1, -, -⟩
      omega
  | succ n ih =>
    intro besti bestj bestsize hle h
    rw [extendFwd_eq]
    split
    · next hc =>
      obtain ⟨hc1, hc2, hc3⟩ := hc
      obtain ⟨h1, h2, h3, h4, h5⟩ :
          alo ≤ besti ∧ blo ≤ bestj ∧ besti + bestsize ≤ ahi ∧ bestj + bestsize ≤ bhi ∧
            MatchT a b (besti, bestj, bestsize) := h
      have h5' : slice a besti (besti + bestsize) = slice b bestj (bestj + bestsize) := h5
      apply ih besti bestj (bestsize + 1) (by omega)
      show alo ≤ besti ∧ blo ≤ bestj ∧ besti + (bestsize + 1) ≤ ahi ∧
        bestj + (bestsize + 1) ≤ bhi ∧ MatchT a b (besti, bestj, bestsize + 1)
      refine ⟨h1, h2, by omega, by omega, ?_⟩
      show slice a besti (besti + (bestsize + 1)) = slice b bestj (bestj + (bestsize + 1))
      rw [show besti + (bestsize + 1) = besti + bestsize + 1 from by omega,
          show bestj + (bestsize + 1) = bestj + bestsize + 1 from by omega]
      rw [slice_snoc a besti (besti + bestsize) (by omega) (by omega),
          slice_snoc b bestj (bestj + bestsize) (by omega) (by omega)]
      rw [h5', hc3]
    · exact h

theorem flm_ok (a b : List String) (alo ahi blo bhi : Nat)
    (h1 : alo ≤ ahi) (h2 : ahi ≤ a.length) (h3 : blo ≤ bhi) (h4 : bhi ≤ b.length) :
    BestOK a b alo blo ahi bhi (find_longest_match a b alo ahi blo bhi) := by
  unfold find_longest_match
  have hinit : BestOK a b alo blo ahi bhi (alo, blo, 0) := by
    show alo ≤ alo ∧ blo ≤ blo ∧ alo + 0 ≤ ahi ∧ blo + 0 ≤ bhi ∧ MatchT a b (alo, blo, 0)
    refine ⟨le_rfl, le_rfl, by omega, by omega, ?_⟩
    show slice a alo (alo + 0) = slice b blo (blo + 0)
    rw [Nat.add_zero, Nat.add_zero, slice_same, slice_same]
  have hp := phase1_ok a b alo blo ahi bhi h2 h4 (ahi - alo) alo (fun _ => 0) (alo, blo, 0)
    le_rfl (by omega) (fun j hj => absurd rfl hj) hinit
  have hq := extendBack_ok a b alo blo ahi bhi h2 h4 _ _ _ hp
  exact extendFwd_ok a b alo blo ahi bhi h2 h4 ahi _ _ _ (by omega) hq

theorem chainB_mono (e : Nat × Nat) :
    ∀ (l : List (Nat × Nat × Nat)) (i j i0 j0 : Nat), ChainB e i j l → i0 ≤ i → j0 ≤ j →
      ChainB e i0 j0 l := by
  intro l
  cases l with
  | nil =>
    intro i j i0 j0 h hi hj
    exact ⟨le_trans hi h.1, le_trans hj h.2⟩
  | cons t rest =>
    intro i j i0 j0 h hi hj
    obtain ⟨ti, tj, tk⟩ := t
    exact ⟨le_trans hi h.1, le_trans hj h.2.1, h.2.2⟩

theorem chainB_append (e : Nat × Nat) :
    ∀ (l1 l2 : List (Nat × Nat × Nat)) (i j m n : Nat),
      ChainB (m, n) i j l1 → ChainB e m n l2 → ChainB e i j (l1 ++ l2) := by
  intro l1
  induction l1 with
  | nil =>
    intro l2 i j m n h1 h2
    exact chainB_mono e l2 m n i j h2 h1.1 h1.2
  | cons t rest ih =>
    intro l2 i j m n h1 h2
    obtain ⟨ti, tj, tk⟩ := t
    exact ⟨h1.1, h1.2.1, ih l2 (ti + tk) (tj + tk) m n h1.2.2 h2⟩

theorem mbRec_chain (a b : List String) :
    ∀ (fuel alo ahi blo bhi : Nat), alo ≤ ahi → ahi ≤ a.length → blo ≤ bhi → bhi ≤ b.length →
      ChainB (ahi, bhi) alo blo (mbRec a b fuel alo ahi blo bhi) := by
  intro fuel
  induction fuel with
  | zero =>
    intro alo ahi blo bhi h1 _ h3 _
    rw [mbRec]
    exact ⟨h1, h3⟩
  | succ n ih =>
    intro alo ahi blo bhi h1 h2 h3 h4
    rw [mbRec]
    rcases hm : find_longest_match a b alo ahi blo bhi with ⟨i, j, k⟩
    dsimp only
    have hbest := flm_ok a b alo ahi blo bhi h1 h2 h3 h4
    rw [hm] at hbest
    obtain ⟨hb1, hb2, hb3, hb4, -⟩ :
        alo ≤ i ∧ blo ≤ j ∧ i + k ≤ ahi ∧ j + k ≤ bhi ∧ MatchT a b (i, j, k) := hbest
    by_cases hk : k = 0
    · rw [if_pos hk]
      exact ⟨h1, h3⟩
    · rw [if_neg hk]
      have hL : ChainB (i, j) alo blo
          (if alo < i ∧ blo < j then mbRec a b n alo i blo j else []) := by
        split
        · exact ih alo i blo j hb1 (by omega) hb2 (by omega)
        · exact ⟨hb1, hb2⟩
      have hR : ChainB (ahi, bhi) (i + k) (j + k)
          (if i + k < ahi ∧ j + k < bhi then mbRec a b n (i + k) ahi (j + k) bhi else []) := by
        split
        · exact ih (i + k) ahi (j + k) bhi (by omega) h2 (by omega) h4
        · exact ⟨hb3, hb4⟩
      exact chainB_append (ahi, bhi) _ _ alo blo i j hL ⟨le_rfl, le_rfl, hR⟩

theorem mbRec_match (a b : List String) :
    ∀ (fuel alo ahi blo bhi : Nat), alo ≤ ahi → ahi ≤ a.length → blo ≤ bhi → bhi ≤ b.length →
      ∀ t ∈ mbRec a b fuel alo ahi blo bhi, MatchT a b t := by
  intro fuel
  induction fuel with
  | zero =>
    intro alo ahi blo bhi _ _ _ _ t ht
    rw [mbRec] at ht
    simp at ht
  | succ n ih =>
    intro alo ahi blo bhi h1 h2 h3 h4 t ht
    rw [mbRec] at ht
    rcases hm : find_longest_match a b alo ahi blo bhi with ⟨i, j, k⟩
    rw [hm] at ht
    dsimp only at ht
    have hbest := flm_ok a b alo ahi blo bhi h1 h2 h3 h4
    rw [hm] at hbest
    obtain ⟨hb1, hb2, hb3, hb4, hb5⟩ :
        alo ≤ i ∧ blo ≤ j ∧ i + k ≤ ahi ∧ j + k ≤ bhi ∧ MatchT a b (i, j, k) := hbest
    by_cases hk : k = 0
    · rw [if_pos hk] at ht
      simp at ht
    · rw [if_neg hk] at ht
      rcases List.mem_append.mp ht with hL | hmid
      · split at hL
        · exact ih alo i blo j hb1 (by omega) hb2 (by omega) t hL
        · simp at hL
      · rcases List.mem_cons.mp hmid with rfl | hR
        · exact hb5
        · split at hR
          · exact ih (i + k) ahi (j + k) bhi (by omega) h2 (by omega) h4 t hR
          · simp at hR

theorem mergeAdj_chain (e : Nat × Nat) :
    ∀ (l : List (Nat × Nat × Nat)) (i1 j1 k1 : Nat),
      ChainB e (i1 + k1) (j1 + k1) l →
      ChainB e i1 j1 (mergeAdj (i1, j1, k1) l) := by
  intro l
  induction l with
  | nil =>
    intro i1 j1 k1 h
    rw [mergeAdj]
    split
    · exact ⟨le_rfl, le_rfl, h⟩
    · exact ⟨le_trans (Nat.le_add_right i1 k1) h.1, le_trans (Nat.le_add_right j1 k1) h.2⟩
  | cons t rest ih =>
    intro i1 j1 k1 h
    obtain ⟨i2, j2, k2⟩ := t
    obtain ⟨hh1, hh2, hh3⟩ := h
    rw [mergeAdj]
    split
    · next hc =>
      obtain ⟨hc1, hc2⟩ := hc
      apply ih i1 j1 (k1 + k2)
      rw [show i1 + (k1 + k2) = i2 + k2 from by omega,
          show j1 + (k1 + k2) = j2 + k2 from by omega]
      exact hh3
    · next hc =>
      have hm : ChainB e i2 j2 (mergeAdj (i2, j2, k2) rest) := ih i2 j2 k2 hh3
      by_cases hk : k1 ≠ 0
      · rw [if_pos hk]
        exact ⟨le_rfl, le_rfl,
          chainB_mono e _ i2 j2 (i1 + k1) (j1 + k1) hm hh1 hh2⟩
      · rw [if_neg hk, List.nil_append]
        exact chainB_mono e _ i2 j2 i1 j1 hm (by omega) (by omega)

theorem mergeAdj_match (a b : List String) :
    ∀ (l : List (Nat × Nat × Nat)) (i1 j1 k1 : Nat),
      MatchT a b (i1, j1, k1) → (∀ t ∈ l, MatchT a b t) →
      ∀ t ∈ mergeAdj (i1, j1, k1) l, MatchT a b t := by
  intro l
  induction l with
  | nil =>
    intro i1 j1 k1 h1 _ t ht
    rw [mergeAdj] at ht
    split at ht
    · rw [List.mem_singleton.mp ht]
      exact h1
    · simp at ht
  | cons u rest ih =>
    intro i1 j1 k1 h1 hl t ht
    obtain ⟨i2, j2, k2⟩ := u
    rw [mergeAdj] at ht
    split at ht
    · next hc =>
      obtain ⟨hc1, hc2⟩ := hc
      refine ih i1 j1 (k1 + k2) ?_ (fun u hu => hl u (List.mem_cons_of_mem _ hu)) t ht
      have hm1 : slice a i1 (i1 + k1) = slice b j1 (j1 + k1) := h1
      have hm2 : slice a i2 (i2 + k2) = slice b j2 (j2 + k2) :=
        hl (i2, j2, k2) (List.mem_cons_self _ _)
      rw [← hc1, ← hc2] at hm2
      show slice a i1 (i1 + (k1 + k2)) = slice b j1 (j1 + (k1 + k2))
      rw [show i1 + (k1 + k2) = i1 + k1 + k2 from by omega,
          show j1 + (k1 + k2) = j1 + k1 + k2 from by omega]
      rw [slice_append_mid a i1 (i1 + k1) (i1 + k1 + k2) (by omega) (by omega),
          slice_append_mid b j1 (j1 + k1) (j1 + k1 + k2) (by omega) (by omega)]
      rw [hm1, hm2]
    · next hc =>
      rcases List.mem_append.mp ht with hu | hu
      · split at hu
        · rw [List.mem_singleton.mp hu]
          exact h1
        · simp at hu
      · exact ih i2 j2 k2 (hl _ (List.mem_cons_self _ _))
          (fun u hu => hl u (List.mem_cons_of_mem _ hu)) t hu

theorem opcodes_equal_drop (a b : List String) :
    ∀ (pre : List (Nat × Nat × Nat)) (i j : Nat),
      ChainB (a.length, b.length) i j (pre ++ [(a.length, b.length, 0)]) →
      (∀ t ∈ pre, MatchT a b t) →
      (∀ c ∈ opcodesAux i j (pre ++ [(a.length, b.length, 0)]), c.tag = Tag.equal) →
      a.drop i = b.drop j := by
  intro pre
  induction pre with
  | nil =>
    intro i j hch hm he
    obtain ⟨hc1, hc2, -⟩ :
        i ≤ a.length ∧ j ≤ b.length ∧
          ChainB (a.length, b.length) (a.length + 0) (b.length + 0) [] := hch
    have hni : ¬ i < a.length := by
      intro hi
      by_cases hj : j < b.length
      · exact Tag.noConfusion (he ⟨Tag.replace, i, a.length, j, b.length⟩ (by
          show _ ∈ opcodesAux i j ((a.length, b.length, 0) :: [])
          rw [opcodesAux, if_pos ⟨hi, hj⟩]
          simp))
      · exact Tag.noConfusion (he ⟨Tag.delete, i, a.length, j, b.length⟩ (by
          show _ ∈ opcodesAux i j ((a.length, b.length, 0) :: [])
          rw [opcodesAux, if_neg (fun hand => hj hand.2), if_pos hi]
          simp))
    have hnj : ¬ j < b.length := by
      intro hj
      exact Tag.noConfusion (he ⟨Tag.insert, i, a.length, j, b.length⟩ (by
        show _ ∈ opcodesAux i j ((a.length, b.length, 0) :: [])
        rw [opcodesAux, if_neg (fun hand => hni hand.1), if_neg hni, if_pos hj]
        simp))
    rw [show i = a.length from by omega, show j = b.length from by omega,
        List.drop_length, List.drop_length]
  | cons t pre ih =>
    intro i j hch hm he
    obtain ⟨ai, bj, k⟩ := t
    obtain ⟨hc1, hc2, hc3⟩ := hch
    have hni : ¬ i < ai := by
      intro hi
      by_cases hj : j < bj
      · exact Tag.noConfusion (he ⟨Tag.replace, i, ai, j, bj⟩ (by
          show _ ∈ opcodesAux i j ((ai, bj, k) :: (pre ++ [(a.length, b.length, 0)]))
          rw [opcodesAux, if_pos ⟨hi, hj⟩]
          simp))
      · exact Tag.noConfusion (he ⟨Tag.delete, i, ai, j, bj⟩ (by
          show _ ∈ opcodesAux i j ((ai, bj, k) :: (pre ++ [(a.length, b.length, 0)]))
          rw [opcodesAux, if_neg (fun hand => hj hand.2), if_pos hi]
          simp))
    have hnj : ¬ j < bj := by
      intro hj
      exact Tag.noConfusion (he ⟨Tag.insert, i, ai, j, bj⟩ (by
        show _ ∈ opcodesAux i j ((ai, bj, k) :: (pre ++ [(a.length, b.length, 0)]))
        rw [opcodesAux, if_neg (fun hand => hni hand.1), if_neg hni, if_pos hj]
        simp))
    have hia : i = ai := by omega
    have hjb : j = bj := by omega
    subst hia
    subst hjb
    have he' : ∀ c ∈ opcodesAux (i + k) (j + k) (pre ++ [(a.length, b.length, 0)]),
        c.tag = Tag.equal := by
      intro c hc
      refine he c ?_
      show c ∈ opcodesAux i j ((i, j, k) :: (pre ++ [(a.length, b.length, 0)]))
      rw [opcodesAux]
      simp only [List.mem_append]
      exact Or.inr hc
    have hdrop := ih (i + k) (j + k) hc3 (fun u hu => hm u (List.mem_cons_of_mem _ hu)) he'
    have hmk : slice a i (i + k) = slice b j (j + k) := hm (i, j, k) (List.mem_cons_self _ _)
    rw [drop_eq_slice_append a i (i + k) (by omega),
        drop_eq_slice_append b j (j + k) (by omega)]
    rw [hmk, hdrop]

theorem get_opcodes_all_equal (a b : List String)
    (h : ∀ c ∈ get_opcodes a b, c.tag = Tag.equal) : a = b := by
  have hchain : ChainB (a.length, b.length) 0 0
      (mergeAdj (0, 0, 0) (mbRec a b (a.length + b.length + 1) 0 a.length 0 b.length) ++
        [(a.length, b.length, 0)]) := by
    refine chainB_append _ _ _ 0 0 a.length b.length ?_ ?_
    · exact mergeAdj_chain (a.length, b.length) _ 0 0 0
        (mbRec_chain a b (a.length + b.length + 1) 0 a.length 0 b.length
          (Nat.zero_le _) le_rfl (Nat.zero_le _) le_rfl)
    · exact ⟨le_rfl, le_rfl, by omega, by omega⟩
  have hmatch : ∀ t ∈ mergeAdj (0, 0, 0)
      (mbRec a b (a.length + b.length + 1) 0 a.length 0 b.length), MatchT a b t := by
    refine mergeAdj_match a b _ 0 0 0 ?_
      (mbRec_match a b (a.length + b.length + 1) 0 a.length 0 b.length
        (Nat.zero_le _) le_rfl (Nat.zero_le _) le_rfl)
    show slice a 0 (0 + 0) = slice b 0 (0 + 0)
    rw [Nat.add_zero, slice_same, slice_same]
  have hdrop := opcodes_equal_drop a b
    (mergeAdj (0, 0, 0) (mbRec a b (a.length + b.length + 1) 0 a.length 0 b.length))
    0 0 hchain hmatch h
  simpa using hdrop

theorem fixupHead_tags (n : Nat) (l : List Opcode) :
    (fixupHead n l).map Opcode.tag = l.map Opcode.tag := by
  cases l with
  | nil => rfl
  | cons c rest =>
    rw [fixupHead]
    split
    · rfl
    · rfl

theorem fixupLast_tags (n : Nat) : ∀ (l : List Opcode),
    (fixupLast n l).map Opcode.tag = l.map Opcode.tag := by
  intro l
  induction l with
  | nil => rfl
  | cons c rest ih =>
    cases rest with
    | nil =>
      rw [fixupLast]
      split
      · rfl
      · rfl
    | cons c2 rest2 =>
      show (c :: fixupLast n (c2 :: rest2)).map Opcode.tag = _
      simp only [List.map_cons]
      rw [ih]
      simp

theorem groupLoop_ne_nil (n : Nat) :
    ∀ (codes group : List Opcode),
      ((∃ c ∈ group, c.tag ≠ Tag.equal) ∨ ∃ c ∈ codes, c.tag ≠ Tag.equal) →
      groupLoop n group codes ≠ [] := by
  intro codes
  induction codes with
  | nil =>
    intro group h
    rcases h with ⟨c, hc, hne⟩ | ⟨c, hc, -⟩
    · rw [groupLoop, if_pos]
      · simp
      · refine ⟨List.ne_nil_of_mem hc, ?_⟩
        rintro ⟨hlen, hhd⟩
        rcases group with - | ⟨g, rest⟩
        · simp at hc
        · have hrest : rest = [] := by
            rw [List.length_cons] at hlen
            exact List.eq_nil_of_length_eq_zero (by omega)
          subst hrest
          have hcg : c = g := by simpa using hc
          subst hcg
          exact hne (by simpa using hhd)
    · simp at hc
  | cons op rest ih =>
    intro group h
    rw [groupLoop]
    split
    · simp
    · apply ih (group ++ [op])
      rcases h with ⟨c, hc, hne⟩ | ⟨c, hc, hne⟩
      · exact Or.inl ⟨c, List.mem_append_left _ hc, hne⟩
      · rcases List.mem_cons.mp hc with rfl | hc'
        · exact Or.inl ⟨c, List.mem_append_right _ (List.mem_singleton_self c), hne⟩
        · exact Or.inr ⟨c, hc', hne⟩

theorem grouped_ne_nil (a b : List String) (h : a ≠ b) :
    get_grouped_opcodes a b 3 ≠ [] := by
  have hex : ∃ c ∈ get_opcodes a b, c.tag ≠ Tag.equal := by
    by_contra hno
    push_neg at hno
    exact h (get_opcodes_all_equal a b hno)
  obtain ⟨c, hc, hne⟩ := hex
  unfold get_grouped_opcodes
  simp only []
  rw [if_neg (List.ne_nil_of_mem hc)]
  apply groupLoop_ne_nil
  refine Or.inr ?_
  have hmem : c.tag ∈ (fixupLast 3 (fixupHead 3 (get_opcodes a b))).map Opcode.tag := by
    rw [fixupLast_tags, fixupHead_tags]
    exact List.mem_map_of_mem _ hc
  obtain ⟨c', hc', htag⟩ := List.mem_map.mp hmem
  exact ⟨c', hc', by rw [htag]; exact hne⟩

theorem unified_diff_headers (a b : List String) (ff tf : String)
    (h : get_grouped_opcodes a b 3 ≠ []) :
    ∃ body, unified_diff a b ff tf =
      ("--- " ++ ff ++ "\n") :: ("+++ " ++ tf ++ "\n") :: body := by
  unfold unified_diff
  rcases hg : get_grouped_opcodes a b 3 with - | ⟨g, gs⟩
  · exact absurd hg h
  · exact ⟨((g :: gs).map (hunkLines a b)).flatten, rfl⟩

theorem string_foldl_append (xs : List String) :
    ∀ s : String, xs.foldl (fun r x => r ++ x) s = s ++ xs.foldl (fun r x => r ++ x) "" := by
  induction xs with
  | nil =>
    intro s
    apply strEq_of_data
    simp [String.data_append]
  | cons x xs ih =>
    intro s
    simp only [List.foldl_cons]
    rw [ih (s ++ x), ih ("" ++ x)]
    apply strEq_of_data
    simp [String.data_append, List.append_assoc]

theorem join_cons (x : String) (xs : List String) :
    String.join (x :: xs) = x ++ String.join xs := by
  show (x :: xs).foldl (fun r s => r ++ s) "" = _
  simp only [List.foldl_cons]
  rw [string_foldl_append xs ("" ++ x)]
  apply strEq_of_data
  simp only [String.data_append, show ("" : String).data = [] from rfl, List.nil_append]
  rfl

/-- Counterexample to claim C9: for slug `overview` on the differing
texts `"old\n"` and `"new\n"`, the unified diff labels the two revisions
`a/overview.md` and `b/overview.md` — the slug with an `.md` suffix
appended — and the suffix-free header lines `--- a/overview` /
`+++ b/overview` the claim describes appear nowhere in the diff. -/
theorem C9_counterexample :
    (compute_diff dmpExternal "overview" "old\n" "new\n").unified_diff =
      "--- a/overview.md\n+++ b/overview.md\n@@ -1 +1 @@\n-old\n+new\n" ∧
    containsSeq ("--- a/overview\n" : String).data
      ((compute_diff dmpExternal "overview" "old\n" "new\n").unified_diff).data = false ∧
    containsSeq ("+++ b/overview\n" : String).data
      ((compute_diff dmpExternal "overview" "old\n" "new\n").unified_diff).data = false :=
  ⟨by decide, by decide, by decide⟩

/-- Claim C9 as amended: for every page slug and every pair of differing
texts, the unified diff in the computed record is labeled with the
pseudo-filenames `a/<slug>.md` and `b/<slug>.md` (the slug with the
`.md` suffix appended) for the old and new revisions respectively: the
diff text begins with the header lines `--- a/<slug>.md` and
`+++ b/<slug>.md`. -/
theorem C9_amended_diff_labels (differ : DocumentDiffer)
    (slug old_content new_content : String) (h : old_content ≠ new_content) :
    ∃ body, (compute_diff differ slug old_content new_content).unified_diff =
      "--- a/" ++ slug ++ ".md\n" ++ ("+++ b/" ++ slug ++ ".md\n" ++ body) := by
  have hne : splitlinesKeep old_content ≠ splitlinesKeep new_content :=
    fun he => h (splitlinesKeep_inj he)
  obtain ⟨body, hb⟩ := unified_diff_headers (splitlinesKeep old_content)
    (splitlinesKeep new_content) ("a/" ++ slug ++ ".md") ("b/" ++ slug ++ ".md")
    (grouped_ne_nil _ _ hne)
  refine ⟨String.join body, ?_⟩
  have hud : (compute_diff differ slug old_content new_content).unified_diff =
      compute_unified_diff slug old_content new_content := by
    unfold compute_diff
    rw [if_neg h]
  rw [hud]
  unfold compute_unified_diff
  rw [hb, join_cons, join_cons]
  apply strEq_of_data
  simp [String.data_append, List.append_assoc, List.cons_append]

/-- Witness for C9 as amended: slug `overview` on the repository-style
pair `"old\n"` vs `"new\n"`. -/
theorem C9_amended_diff_labels_witness :
    ("old\n" : String) ≠ "new\n" ∧
    ∃ body, (compute_diff dmpExternal "overview" "old\n" "new\n").unified_diff =
      "--- a/" ++ "overview" ++ ".md\n" ++ ("+++ b/" ++ "overview" ++ ".md\n" ++ body) :=
  ⟨by decide, C9_amended_diff_labels dmpExternal "overview" "old\n" "new\n" (by decide)⟩

end DocMonitor
